import Mathlib

/-!
# s3copy: replication topology validation and event dispatch

A shallow embedding of `main.go`.  Go maps are association lists (a key occurs once in a
well-formed map), the order in which `range` yields the entries of a map is an explicit
list, `log.Fatal` is an outcome of its own, recursion that Go leaves unbounded carries a
depth budget, and the goroutines that send on a channel are represented by the order in
which their values arrive.
-/

namespace S3Copy

/-! ## Data model -/

/-- Config describes the configuration of one source bucket. -/
structure Config where
  Region : String
  SQS : String
  SQSRegion : String
  Destinations : List String
deriving DecidableEq

/-- The Go zero value of `Config`, which indexing a map at an absent key yields. -/
def Config.zero : Config := ⟨"", "", "", []⟩

/-- The global `config map[string]Config`, as an association list. -/
abbrev ConfigMap := List (String × Config)

/-- Map indexing `config[k]`: the stored value, or the zero value when `k` is absent. -/
def ConfigMap.get (config : ConfigMap) (k : String) : Config :=
  match config.lookup k with
  | some v => v
  | none => Config.zero

/-- The keys of the map, in listing order. -/
def ConfigMap.keys (config : ConfigMap) : List String := config.map Prod.fst

/-- How a call ends: it returns, the process exits through `log.Fatal`, or the
depth budget of the model runs out.  `fatal` carries the logged message and the
bucket sequence the message was built from. -/
inductive Run (α : Type) where
  | returned : α → Run α
  | fatal : String → List String → Run α
  | diverge : Run α
deriving DecidableEq

/-! ## Cycle detection: `detectCycle` and `PanicIfCopyCycleFound` -/

/-- The body of `detectCycle`: the `for _, d := range conf` loop.  `recurse` is the
recursive call `detectCycle(config[d].Destinations, branch, visitedMap)`.  The
visited map is the list of keys set to `true`; as Go maps are references, the
updates made in a recursive call are seen by the caller, so the map is returned.
`trail` is the bucket sequence whose rendering is `cycle`. -/
def detectLoop (config : ConfigMap)
    (recurse : List String → String → List String → List String → Run (List String)) :
    List String → String → List String → List String → Run (List String)
  | [], _, _, visitedMap => .returned visitedMap
  | d :: rest, cycle, trail, visitedMap =>
    let branch := cycle ++ " -> " ++ d
    if d ∈ visitedMap then
      .fatal ("Cyclic copy found: " ++ branch) (trail ++ [d])
    else
      if (config.get d).Destinations.length ≠ 0 then
        match recurse (config.get d).Destinations branch (trail ++ [d]) (d :: visitedMap) with
        | .returned visitedMap2 => detectLoop config recurse rest cycle trail visitedMap2
        | .fatal msg t => .fatal msg t
        | .diverge => .diverge
      else
        detectLoop config recurse rest cycle trail (d :: visitedMap)

/-- The function `detectCycle(conf, cycle, visitedMap)`, with a budget on the depth of
recursion. -/
def detectCycle (config : ConfigMap) :
    Nat → List String → String → List String → List String → Run (List String)
  | 0 => fun _ _ _ _ => .diverge
  | fuel + 1 => detectLoop config (detectCycle config fuel)

/-- The function `PanicIfCopyCycleFound`: `order` lists the entries of `config` in the
order in which `range config` yields them. -/
def PanicIfCopyCycleFound (config : ConfigMap) (fuel : Nat) :
    List (String × Config) → Run Unit
  | [] => .returned ()
  | (k, v) :: rest =>
    match detectCycle config fuel v.Destinations k [k] [k] with
    | .returned _ => PanicIfCopyCycleFound config fuel rest
    | .fatal msg t => .fatal msg t
    | .diverge => .diverge

/-! ## Events and errors -/

/-- The bucket of `events.S3Entity`. -/
structure S3Bucket where
  Name : String
deriving DecidableEq

/-- The object of `events.S3Entity`. -/
structure S3Object where
  Key : String
deriving DecidableEq

/-- The fields of `events.S3Entity` that the program reads. -/
structure S3Entity where
  Bucket : S3Bucket
  Object : S3Object
deriving DecidableEq

/-- A record of `events.S3Event`. -/
structure S3EventRecord where
  S3 : S3Entity
deriving DecidableEq

/-- The type `events.S3Event`. -/
structure S3Event where
  Records : List S3EventRecord
deriving DecidableEq

/-- The fields of `events.SNSEntity` that the program reads. -/
structure SNSEntity where
  MessageID : String
  Message : String
deriving DecidableEq

/-- A record of `events.SNSEvent`. -/
structure SNSEventRecord where
  SNS : SNSEntity
deriving DecidableEq

/-- The type `events.SNSEvent`. -/
structure SNSEvent where
  Records : List SNSEventRecord
deriving DecidableEq

/-- The error values the program builds with `fmt.Errorf`, and those it passes on from
the queue client.  A Go `error` is an `Option Error`, `nil` being `none`. -/
inductive Error where
  | session (cfg : Config)
  | copy (item from_ to_ cause : String)
  | waiting (item to_ cause : String)
  | parsing (cause : String)
  | queue (cause : String)
deriving DecidableEq

/-! ## Copying: `copyObjects` and `processS3Event` -/

/-- What S3 answers to one copy: the errors of `svc.CopyObject` and of
`svc.WaitUntilObjectExists`, `none` for `nil`. -/
structure CopyResult where
  CopyObject : Option String
  WaitUntilObjectExists : Option String

/-- The function `copyObjects`: the one value it sends on `errChan`. -/
def copyObjects (svc : CopyResult) (from_ to_ item : String) : Option Error :=
  match svc.CopyObject with
  | some err => some (.copy item from_ to_ err)
  | none =>
    match svc.WaitUntilObjectExists with
    | some err => some (.waiting item to_ err)
    | none => none

/-- A goroutine started by `go copyObjects(s3.New(sess), from, to, item, errChan)`. -/
structure CopyTask where
  from_ : String
  to_ : String
  item : String
deriving DecidableEq

/-- The surroundings of one call of `processS3Event`: whether `session.NewSession`
succeeds for a region, what S3 answers to the `n`-th copy started, and the order in which
the started copies get to hand their value over on the unbuffered `errChan`. -/
structure World where
  NewSession : String → Bool
  s3 : Nat → CopyResult
  arrival : List Nat

/-- The copies one record starts: one for each destination of its bucket. -/
def copiesOf (config : ConfigMap) (v : S3EventRecord) : List CopyTask :=
  (config.get v.S3.Bucket.Name).Destinations.map
    (fun v1 => ⟨v.S3.Bucket.Name, v1, v.S3.Object.Key⟩)

/-- The first loop of `processS3Event`: for each record a session, then a goroutine for
each destination.  `started` are the goroutines started so far; a session that cannot
be established ends the call with those already running. -/
def startCopies (config : ConfigMap) (NewSession : String → Bool) :
    List S3EventRecord → List CopyTask → Except (Error × List CopyTask) (List CopyTask)
  | [], started => .ok started
  | v :: rest, started =>
    if NewSession (config.get v.S3.Bucket.Name).Region then
      startCopies config NewSession rest (started ++ copiesOf config v)
    else
      .error (.session (config.get v.S3.Bucket.Name), started)

/-- The values the started copies send: the `n`-th of them sends what `copyObjects`
computes from the `n`-th answer of S3. -/
def sends (s3 : Nat → CopyResult) : Nat → List CopyTask → List (Option Error)
  | _, [] => []
  | n, t :: rest => copyObjects (s3 n) t.from_ t.to_ t.item :: sends s3 (n + 1) rest

/-- The values that come out of `errChan`, in order: those of the started copies, in the
order of arrival. -/
def channel (w : World) (started : List CopyTask) : List (Option Error) :=
  w.arrival.filterMap (fun i => (sends w.s3 0 started)[i]?)

/-- The state of a receiving loop after an iteration: go on with the rest of the channel,
or the call is over - it returned `err`, or it blocks for ever on an empty channel
(`none`).  The number counts the values received. -/
inductive Step where
  | next (chan : List (Option Error)) (received : Nat)
  | stop (err : Option (Option Error)) (received : Nat)

/-- The inner loop `for range config[v.S3.Bucket.Name].Destinations`: one receive for each
destination, and `return err` at the first value that is not `nil`. -/
def receiveEach : List String → List (Option Error) → Nat → Step
  | [], chan, n => .next chan n
  | _ :: _, [], n => .stop none n
  | _ :: _, some err :: _, n => .stop (some (some err)) (n + 1)
  | _ :: rest, none :: chan, n => receiveEach rest chan (n + 1)

/-- The second loop of `processS3Event`, over the records; `return nil` at its end. -/
def receiveAll (config : ConfigMap) :
    List S3EventRecord → List (Option Error) → Nat → Option (Option Error) × Nat
  | [], _, n => (some none, n)
  | v :: rest, chan, n =>
    match receiveEach (config.get v.S3.Bucket.Name).Destinations chan n with
    | .next chan2 n2 => receiveAll config rest chan2 n2
    | .stop err n2 => (err, n2)

/-- What a call of `processS3Event` did: the copies it started, the number of values it
received from `errChan`, and the error it returned (`some none` for `nil`), or `none`
when it never returns. -/
structure Dispatched where
  started : List CopyTask
  received : Nat
  err : Option (Option Error)

/-- The function `processS3Event`. -/
def processS3Event (config : ConfigMap) (w : World) (request : S3Event) : Dispatched :=
  match startCopies config w.NewSession request.Records [] with
  | .error (err, started) => ⟨started, 0, some (some err)⟩
  | .ok started =>
    ⟨started, (receiveAll config request.Records (channel w started) 0).2,
      (receiveAll config request.Records (channel w started) 0).1⟩

/-! ## Queue messages: `processSQSEvent` -/

/-- The fields of `sqs.Message` that the program reads. -/
structure Message where
  Body : String
  ReceiptHandle : String
deriving DecidableEq

/-- The zero value of `events.S3Event`, which `var s3Event events.S3Event` holds. -/
def S3Event.zero : S3Event := ⟨[]⟩

/-- The zero value of `events.SNSEntity`, which `var snsMessages events.SNSEntity`
holds. -/
def SNSEntity.zero : SNSEntity := ⟨"", ""⟩

/-- The surroundings of `processSQSEvent`.  `UnmarshalSNS text v` and `UnmarshalS3 text v`
stand for `json.Unmarshal([]byte(text), &target)` when the target holds `v`: they give the
value the call leaves in the target and the error it returns (`none` for `nil`); a call
that fails may have written part of its input.  `world` gives the surroundings of the
call of `processS3Event` made for a message, `DeleteMessage` the error of
`svc.DeleteMessage`. -/
structure Queue where
  UnmarshalSNS : String → SNSEntity → SNSEntity × Option String
  UnmarshalS3 : String → S3Event → S3Event × Option String
  world : Message → World
  DeleteMessage : Message → Option String

/-- What `processSQSEvent` does with one message: one of its four logged failures, the
deletion, or waiting for ever in `processS3Event`. -/
inductive Fate where
  | snsUnmarshalFailed
  | sqsUnmarshalFailed
  | processingFailed (err : Error)
  | blocked
  | deleteFailed (err : Error)
  | deleted
deriving DecidableEq

/-- The decoding steps of `processSQSEvent` for one message, lines 154 to 167: the body is
unmarshalled into a fresh `snsMessages`; its `Message` is unmarshalled into a fresh
`s3Event`; when that fails, the body is unmarshalled into the same `s3Event`, which still
holds what the failed call wrote.  The result is the `s3Event` handed to
`processS3Event`, or the failure that is logged. -/
def unmarshalBody (q : Queue) (message : Message) : Except Fate S3Event :=
  match q.UnmarshalSNS message.Body SNSEntity.zero with
  | (_, some _) => .error .snsUnmarshalFailed
  | (snsMessages, none) =>
    match q.UnmarshalS3 snsMessages.Message S3Event.zero with
    | (s3Event, none) => .ok s3Event
    | (s3Event, some _) =>
      match q.UnmarshalS3 message.Body s3Event with
      | (s3Event2, none) => .ok s3Event2
      | (_, some _) => .error .sqsUnmarshalFailed

/-- The function `deleteMessageFromSQS`. -/
def deleteMessageFromSQS (q : Queue) (message : Message) : Option Error :=
  match q.DeleteMessage message with
  | some err => some (.queue err)
  | none => none

/-- The function `processSQSEvent`: for each message of the batch what became of it.  Each
failure is logged and followed by `continue`. -/
def processSQSEvent (config : ConfigMap) (q : Queue) : List Message → List (Message × Fate)
  | [] => []
  | message :: rest =>
    match unmarshalBody q message with
    | .error fate => (message, fate) :: processSQSEvent config q rest
    | .ok s3Event =>
      match (processS3Event config (q.world message) s3Event).err with
      | none => [(message, .blocked)]
      | some (some err) => (message, .processingFailed err) :: processSQSEvent config q rest
      | some none =>
        match deleteMessageFromSQS q message with
        | some err => (message, .deleteFailed err) :: processSQSEvent config q rest
        | none => (message, .deleted) :: processSQSEvent config q rest

/-- The messages for which `deleteMessageFromSQS` was called. -/
def deleteCalled : Fate → Bool
  | .deleted => true
  | .deleteFailed _ => true
  | _ => false

/-! ## The entry point: `parseConfig` and `ProcessIncomingEvents` -/

/-- The function `parseConfig`, from the point where the configuration has been fetched
and unmarshalled (`source`, or the error of one of these steps): it validates the
topology, iterating the map in its listing order. -/
def parseConfig (source : Except String ConfigMap) (fuel : Nat) : Run (Option String) :=
  match source with
  | .error err => .returned (some err)
  | .ok config =>
    match PanicIfCopyCycleFound config fuel config with
    | .returned _ => .returned none
    | .fatal msg t => .fatal msg t
    | .diverge => .diverge

/-- The function that `ProcessIncomingEvents` passes the event on to. -/
inductive Handling where
  | processS3Event (request : S3Event)
  | processSNSEvent (receiveResp : SNSEvent)
  | processSQSMessage
deriving DecidableEq

/-- The argument `event interface{}` of `ProcessIncomingEvents`: a JSON object, held as a
`map[string]interface{}`, or a value of any other dynamic type. -/
inductive Payload (Raw : Type) where
  | object (e : Raw)
  | other

/-- How a call of `ProcessIncomingEvents` ends: in `log.Fatal` during validation, out of
budget, returning the error of `parseConfig`, in the panic of the type assertion
`event.(map[string]interface{})`, or passing the event on to a handler, whose result it
returns. -/
inductive Invocation where
  | fatal (msg : String) (trail : List String)
  | diverge
  | failed (err : Error)
  | panicked
  | passed (handler : Handling)
deriving DecidableEq

/-- The function `ProcessIncomingEvents`: `decodeS3` and `decodeSNS` are what
`mapstructure.Decode` leaves in the fresh `s3Event` and `snsEvent`, its errors being
ignored. -/
def ProcessIncomingEvents {Raw : Type} (source : Except String ConfigMap) (fuel : Nat)
    (decodeS3 : Raw → S3Event) (decodeSNS : Raw → SNSEvent) (event : Payload Raw) :
    Invocation :=
  match parseConfig source fuel with
  | .fatal msg t => .fatal msg t
  | .diverge => .diverge
  | .returned (some err) => .failed (.parsing err)
  | .returned none =>
    match event with
    | .other => .panicked
    | .object e =>
      let s3Event := decodeS3 e
      if 0 < s3Event.Records.length ∧
          s3Event.Records[0]?.map (fun r => r.S3.Object.Key) ≠ some "" then
        .passed (.processS3Event s3Event)
      else
        let snsEvent := decodeSNS e
        if 0 < snsEvent.Records.length ∧
            snsEvent.Records[0]?.map (fun r => r.SNS.MessageID) ≠ some "" then
          .passed (.processSNSEvent snsEvent)
        else
          .passed .processSQSMessage

/-! ## Vocabulary of the properties -/

/-- The destination edge `a -> d`: bucket `d` is listed among the destinations of `a`. -/
def edge (config : ConfigMap) (a d : String) : Prop := d ∈ (config.get a).Destinations

/-- The distinct buckets of the topology: the configured buckets and all listed
destinations. -/
def buckets (config : ConfigMap) : Finset String :=
  (config.keys ++ config.flatMap (fun kv => kv.2.Destinations)).toFinset

/-- The bucket reached from `b` by choosing, at each step, the destination at the given
position of the current bucket's destination list; `none` when a position is out of
range. -/
def walkEnd (config : ConfigMap) : String → List Nat → Option String
  | b, [] => some b
  | b, i :: is =>
    match (config.get b).Destinations[i]? with
    | none => none
    | some d => walkEnd config d is

/-- The bucket reached by a walk of at least one step whose first step picks a position
of the list `conf`. -/
def walkFrom (config : ConfigMap) (conf : List String) : List Nat → Option String
  | [] => none
  | i :: is =>
    match conf[i]? with
    | none => none
    | some d => walkEnd config d is

/-- The buckets a walk from `b` passes, `b` first: the walk stops at a position that is
out of range. -/
def walkNodes (config : ConfigMap) : String → List Nat → List String
  | b, [] => [b]
  | b, i :: is =>
    match (config.get b).Destinations[i]? with
    | none => [b]
    | some d => b :: walkNodes config d is

/-- The traversal from root `k` reaches no bucket twice: `k` is not reached again from
itself, and every other bucket ends at most one walk from `k`, walks being told apart
by the positions they pick in the destination lists. -/
def NoRevisit (config : ConfigMap) (k : String) : Prop :=
  (∀ w, w ≠ [] → walkEnd config k w ≠ some k) ∧
  (∀ b, b ≠ k → ∀ w w2, walkEnd config k w = some b → walkEnd config k w2 = some b → w = w2)

/-- The condition `NoRevisit` in terms of edges only: no cycle through `k`, no bucket
reachable from `k` lists a destination twice, and no bucket is a destination of two
buckets reachable from `k`. -/
def LocallyTree (config : ConfigMap) (k : String) : Prop :=
  ¬ Relation.TransGen (edge config) k k ∧
  (∀ u, Relation.ReflTransGen (edge config) k u → (config.get u).Destinations.Nodup) ∧
  (∀ u u2 b, Relation.ReflTransGen (edge config) k u →
    Relation.ReflTransGen (edge config) k u2 → edge config u b → edge config u2 b → u = u2)

/-- Two listings of one topology: the same buckets are configured, and every bucket has
the same destinations up to their order in the list. -/
def SameTopology (config config2 : ConfigMap) : Prop :=
  config.keys.Perm config2.keys ∧
    ∀ b, (config.get b).Destinations.Perm (config2.get b).Destinations

/-- The event a message decodes to, step by step: its body unmarshals into an SNS entity,
and either that entity's `Message` unmarshals into an S3 event `e`, or it fails, leaving
`left` in the target, and the body unmarshals into that same target, giving `e`. -/
def DecodesTo (q : Queue) (message : Message) (e : S3Event) : Prop :=
  ∃ snsMessages, q.UnmarshalSNS message.Body SNSEntity.zero = (snsMessages, none) ∧
    (q.UnmarshalS3 snsMessages.Message S3Event.zero = (e, none) ∨
      ∃ left err, q.UnmarshalS3 snsMessages.Message S3Event.zero = (left, some err) ∧
        q.UnmarshalS3 message.Body left = (e, none))

/-- The rendering of a bucket sequence in the fatal message, `A -> B -> C`. -/
def render (trail : List String) : String := " -> ".intercalate trail

/-! ## Auxiliary definitions of the proofs -/

/-- What a normal return of `detectCycle conf _ V` establishes: the visited map grew by
exactly the buckets that walks from `conf` reach, each of them fresh and reached by one
walk only. -/
def Explored (config : ConfigMap) (conf V V2 : List String) : Prop :=
  ∃ new : List String, V2 = new ++ V ∧ new.Nodup ∧ (∀ b ∈ new, b ∉ V) ∧
    (∀ b, b ∈ new ↔ ∃ w, walkFrom config conf w = some b) ∧
    (∀ w w2 b, walkFrom config conf w = some b → walkFrom config conf w2 = some b → w = w2)

/-- The walks that start in `conf` form a tree that avoids `V`: none of them ends in a
bucket of `V`, and no two of them end in the same bucket. -/
def TreeFrom (config : ConfigMap) (conf V : List String) : Prop :=
  (∀ w b, walkFrom config conf w = some b → b ∉ V) ∧
  (∀ w w2 b, walkFrom config conf w = some b → walkFrom config conf w2 = some b → w = w2)

/-- The number of distinct configured buckets the visited map does not hold yet: the
measure that bounds the depth of recursion. -/
def unvisited (config : ConfigMap) (V : List String) : Nat :=
  (config.keys.toFinset.filter (fun k => k ∉ V)).card

/-- The state of the bucket sequence on entry to `detectCycle`: its buckets are distinct,
all marked in the visited map, joined by destination edges, and `conf` lists
destinations of its last bucket. -/
def TrailOK (config : ConfigMap) (trail V conf : List String) : Prop :=
  trail ≠ [] ∧ trail.Nodup ∧ (∀ x ∈ trail, x ∈ V) ∧ List.Chain' (edge config) trail ∧
    (∀ l ∈ trail.getLast?, ∀ d ∈ conf, edge config l d)

/-- What a fatal exit reports: the message renders the bucket sequence `t`, which
extends `trail` along destination edges and repeats no bucket before its last one. -/
def Reported (config : ConfigMap) (trail : List String) (msg : String) (t : List String) :
    Prop :=
  msg = "Cyclic copy found: " ++ render t ∧
    ∃ mid d, t = trail ++ mid ++ [d] ∧ (trail ++ mid).Nodup ∧ List.Chain' (edge config) t

/-- The loop of `detectCycle` again, paired with the number of recursive calls of
`detectCycle` made while it runs. -/
def countLoop (config : ConfigMap)
    (recurse : List String → String → List String → List String → Run (List String) × Nat) :
    List String → String → List String → List String → Run (List String) × Nat
  | [], _, _, visitedMap => (.returned visitedMap, 0)
  | d :: rest, cycle, trail, visitedMap =>
    let branch := cycle ++ " -> " ++ d
    if d ∈ visitedMap then
      (.fatal ("Cyclic copy found: " ++ branch) (trail ++ [d]), 0)
    else
      if (config.get d).Destinations.length ≠ 0 then
        match recurse (config.get d).Destinations branch (trail ++ [d]) (d :: visitedMap) with
        | (.returned visitedMap2, n) =>
          ((countLoop config recurse rest cycle trail visitedMap2).1,
            n + 1 + (countLoop config recurse rest cycle trail visitedMap2).2)
        | (.fatal msg t, n) => (.fatal msg t, n + 1)
        | (.diverge, n) => (.diverge, n + 1)
      else
        countLoop config recurse rest cycle trail (d :: visitedMap)

/-- The function `detectCycle` paired with the number of recursive calls it makes. -/
def detectCycleCalls (config : ConfigMap) :
    Nat → List String → String → List String → List String → Run (List String) × Nat
  | 0 => fun _ _ _ _ => (.diverge, 0)
  | fuel + 1 => countLoop config (detectCycleCalls config fuel)

/-- The sequential form of the two nested receiving loops: `k` receives in a row. -/
def receiveN : Nat → List (Option Error) → Nat → Option (Option Error) × Nat
  | 0, _, n => (some none, n)
  | _ + 1, [], n => (none, n)
  | _ + 1, some err :: _, n => (some (some err), n + 1)
  | k + 1, none :: chan, n => receiveN k chan (n + 1)

/-! ## Sample inputs -/

/-- A bucket with the given destinations. -/
def bucket (dests : List String) : Config := ⟨"", "", "", dests⟩

/-- The diamond `A -> B, A -> C, B -> D, C -> D`. -/
def diamond : ConfigMap :=
  [("A", bucket ["B", "C"]), ("B", bucket ["D"]), ("C", bucket ["D"])]

/-- A ranking of the buckets of `diamond` that every edge increases. -/
def diamondRank (b : String) : Nat :=
  if b = "A" then 0 else if b = "B" then 1 else if b = "C" then 1 else 2

/-- A cycle entered after the root: `A -> B`, `B -> C`, `C -> B`. -/
def lasso : ConfigMap :=
  [("A", bucket ["B"]), ("B", bucket ["C"]), ("C", bucket ["B"])]

/-- One source that names the same destination twice: `A: [B, B]`. -/
def twice : ConfigMap := [("A", bucket ["B", "B"])]

/-- Two sources that share a destination: `A: [C]`, `B: [C]`. -/
def shared : ConfigMap := [("A", bucket ["C"]), ("B", bucket ["C"])]

/-- A bucket that lists itself: `A: [A]`. -/
def selfLoop : ConfigMap := [("A", bucket ["A"])]

/-- One source with two destinations: `S: [X, Y]`. -/
def fanOut : ConfigMap := [("S", bucket ["X", "Y"])]

/-- The event of one object `photo.png` changed in bucket `S`. -/
def photoEvent : S3Event := ⟨[⟨⟨⟨"S"⟩, ⟨"photo.png"⟩⟩⟩]⟩

/-- Sessions are established, the copy to `X` (the first started) fails and reaches the
channel first, the copy to `Y` succeeds. -/
def firstFails : World :=
  ⟨fun _ => true, fun n => if n = 0 then ⟨some "AccessDenied", none⟩ else ⟨none, none⟩, [0, 1]⟩

/-- Sessions are established, both copies fail, and the copy to `Y` (the second started)
reaches the channel first. -/
def bothFail : World :=
  ⟨fun _ => true, fun n => if n = 0 then ⟨some "AccessDenied", none⟩ else ⟨some "SlowDown", none⟩,
    [1, 0]⟩

/-- Sessions are established and both copies succeed, the second arriving first. -/
def allSucceed : World := ⟨fun _ => true, fun _ => ⟨none, none⟩, [1, 0]⟩

/-- A queue whose bodies are `"event"` (the notification `photoEvent`, straight from S3:
as an SNS entity it has an empty `Message`, which is not JSON) or something that is not
JSON, and whose copies and deletions all succeed. -/
def plainQueue : Queue :=
  ⟨fun body v => if body = "event" then (⟨"", ""⟩, none) else (v, some "invalid character"),
    fun text v => if text = "event" then (photoEvent, none)
      else (v, some "unexpected end of JSON input"),
    fun _ => allSucceed, fun _ => none⟩

/-- The record of an object `report.csv` changed in bucket `S`. -/
def reportRecord : S3EventRecord := ⟨⟨⟨"S"⟩, ⟨"report.csv"⟩⟩⟩

/-- A queue with one kind of body, `"envelope"`: an SNS entity whose `Message`, `"inner"`,
holds the record `reportRecord` and a field of the wrong type, so that unmarshalling it
fails after writing the record; the body itself has no `Records`, so unmarshalling it
into an S3 event succeeds and leaves the target as it is.  The copies fail. -/
def residueQueue : Queue :=
  ⟨fun body v => if body = "envelope" then (⟨"m-1", "inner"⟩, none)
      else (v, some "invalid character"),
    fun text v => if text = "inner" then (⟨[reportRecord]⟩, some "cannot unmarshal string")
      else if text = "envelope" then (v, none) else (v, some "invalid character"),
    fun _ => firstFails, fun _ => none⟩

/-- A direct event whose first record has no key and whose second record has one. -/
def keyInSecondRecord : S3Event :=
  ⟨[⟨⟨⟨"S"⟩, ⟨""⟩⟩⟩, ⟨⟨⟨"S"⟩, ⟨"photo.png"⟩⟩⟩]⟩

/-! ## Walks -/

theorem walkFrom_nil (config : ConfigMap) (w : List Nat) : walkFrom config [] w = none := by
  cases w <;> simp [walkFrom]

theorem walkFrom_cons_zero (config : ConfigMap) (d : String) (rest : List String)
    (is : List Nat) : walkFrom config (d :: rest) (0 :: is) = walkEnd config d is := by
  simp [walkFrom]

theorem walkFrom_cons_succ (config : ConfigMap) (d : String) (rest : List String)
    (i : Nat) (is : List Nat) :
    walkFrom config (d :: rest) ((i + 1) :: is) = walkFrom config rest (i :: is) := by
  simp [walkFrom]

theorem walkEnd_cons (config : ConfigMap) (b : String) (i : Nat) (is : List Nat) :
    walkEnd config b (i :: is) = walkFrom config (config.get b).Destinations (i :: is) := by
  simp [walkEnd, walkFrom]

theorem walkEnd_append (config : ConfigMap) :
    ∀ (w w2 : List Nat) (a : String),
      walkEnd config a (w ++ w2) = (walkEnd config a w).bind (fun u => walkEnd config u w2) := by
  intro w
  induction w with
  | nil => intro w2 a; simp [walkEnd]
  | cons i is ih =>
    intro w2 a
    simp only [List.cons_append, walkEnd]
    split
    · simp
    · exact ih w2 _

theorem walkEnd_concat (config : ConfigMap) (w : List Nat) (i : Nat) (a b : String) :
    walkEnd config a (w ++ [i]) = some b ↔
      ∃ u, walkEnd config a w = some u ∧ (config.get u).Destinations[i]? = some b := by
  rw [walkEnd_append]
  cases hw : walkEnd config a w with
  | none => simp
  | some u =>
    simp only [Option.some_bind, walkEnd, Option.some.injEq, exists_eq_left']
    cases (config.get u).Destinations[i]? <;> simp

theorem walkEnd_of_edge (config : ConfigMap) (a d : String) (h : edge config a d) :
    ∃ i, walkEnd config a [i] = some d := by
  obtain ⟨i, hi⟩ := List.getElem?_of_mem h
  exact ⟨i, by simp [walkEnd, hi]⟩

theorem walk_of_transGen (config : ConfigMap) (a b : String)
    (h : Relation.TransGen (edge config) a b) :
    ∃ w, w ≠ [] ∧ walkEnd config a w = some b := by
  induction h using Relation.TransGen.head_induction_on with
  | base h =>
    obtain ⟨i, hi⟩ := walkEnd_of_edge config _ _ h
    exact ⟨[i], by simp, hi⟩
  | ih h _ ih =>
    obtain ⟨w, _, hw⟩ := ih
    obtain ⟨i, hi⟩ := List.getElem?_of_mem h
    exact ⟨i :: w, by simp, by simp [walkEnd, hi, hw]⟩

theorem walk_of_reflTransGen (config : ConfigMap) (a b : String)
    (h : Relation.ReflTransGen (edge config) a b) : ∃ w, walkEnd config a w = some b := by
  rcases Relation.reflTransGen_iff_eq_or_transGen.1 h with rfl | h
  · exact ⟨[], rfl⟩
  · obtain ⟨w, _, hw⟩ := walk_of_transGen config a b h
    exact ⟨w, hw⟩

theorem reflTransGen_of_walk (config : ConfigMap) :
    ∀ (w : List Nat) (a b : String), walkEnd config a w = some b →
      Relation.ReflTransGen (edge config) a b := by
  intro w
  induction w with
  | nil =>
    intro a b h
    simp only [walkEnd, Option.some.injEq] at h
    subst h
    exact Relation.ReflTransGen.refl
  | cons i is ih =>
    intro a b h
    simp only [walkEnd] at h
    split at h
    · exact absurd h (by simp)
    · rename_i d hd
      exact Relation.ReflTransGen.head (List.getElem?_mem hd) (ih d b h)

theorem transGen_of_walk (config : ConfigMap) (w : List Nat) (a b : String)
    (hne : w ≠ []) (h : walkEnd config a w = some b) :
    Relation.TransGen (edge config) a b := by
  match w, hne, h with
  | i :: is, _, h =>
    simp only [walkEnd] at h
    split at h
    · exact absurd h (by simp)
    · rename_i d hd
      exact Relation.TransGen.head' (List.getElem?_mem hd)
        (reflTransGen_of_walk config is d b h)

theorem out_edge_of_transGen (config : ConfigMap) (a b : String)
    (h : Relation.TransGen (edge config) a b) : (config.get a).Destinations ≠ [] := by
  obtain ⟨c, hc, _⟩ := Relation.TransGen.head'_iff.1 h
  exact List.ne_nil_of_mem hc

/-! ## Map lookups -/

theorem get_of_lookup_none (config : ConfigMap) (d : String) (h : config.lookup d = none) :
    config.get d = Config.zero := by
  simp [ConfigMap.get, h]

theorem mem_of_destinations_ne_nil (config : ConfigMap) (d : String)
    (h : (config.get d).Destinations ≠ []) : (d, config.get d) ∈ config := by
  cases hl : config.lookup d with
  | none => rw [get_of_lookup_none config d hl] at h; exact absurd rfl h
  | some v =>
    have : config.get d = v := by simp [ConfigMap.get, hl]
    rw [this]
    clear this h
    induction config with
    | nil => simp at hl
    | cons kv rest ih =>
      obtain ⟨k, w⟩ := kv
      by_cases hk : d = k
      · subst hk
        simp [List.lookup] at hl
        simp [hl]
      · have hb : (d == k) = false := by simpa using hk
        simp only [List.lookup, hb] at hl
        exact List.mem_cons_of_mem _ (ih hl)

theorem key_of_destinations_ne_nil (config : ConfigMap) (d : String)
    (h : (config.get d).Destinations ≠ []) : d ∈ config.keys :=
  List.mem_map.2 ⟨_, mem_of_destinations_ne_nil config d h, rfl⟩

theorem get_of_mem (config : ConfigMap) (hnd : config.keys.Nodup) (k : String) (v : Config)
    (h : (k, v) ∈ config) : config.get k = v := by
  have : config.lookup k = some v := by
    induction config with
    | nil => simp at h
    | cons kv rest ih =>
      obtain ⟨k2, v2⟩ := kv
      simp only [ConfigMap.keys, List.map_cons, List.nodup_cons] at hnd
      rcases List.mem_cons.1 h with h1 | h2
      · simp only [Prod.mk.injEq] at h1
        obtain ⟨rfl, rfl⟩ := h1
        simp [List.lookup]
      · have hne : k ≠ k2 := by
          intro e
          exact hnd.1 (List.mem_map.2 ⟨(k, v), h2, e⟩)
        have hb : (k == k2) = false := by simpa using hne
        simp only [List.lookup, hb]
        exact ih hnd.2 h2
  simp [ConfigMap.get, this]

/-! ## What a normal return of `detectCycle` establishes -/

theorem explored_nil (config : ConfigMap) (V : List String) : Explored config [] V V := by
  refine ⟨[], rfl, List.nodup_nil, ?_, ?_, ?_⟩
  · simp
  · intro b; simp [walkFrom_nil]
  · intro w w2 b h; simp [walkFrom_nil] at h

/-- Composition of the marks of one loop iteration with those of the rest of the loop. -/
theorem explored_cons (config : ConfigMap) (d : String) (rest V V1 V2 : List String)
    (hd : d ∉ V) (h1 : Explored config (config.get d).Destinations (d :: V) V1)
    (h2 : Explored config rest V1 V2) : Explored config (d :: rest) V V2 := by
  obtain ⟨n1, rfl, nd1, fr1, mem1, inj1⟩ := h1
  obtain ⟨n2, rfl, nd2, fr2, mem2, inj2⟩ := h2
  have key : ∀ w b, walkFrom config (d :: rest) w = some b →
      (w = [0] ∧ b = d) ∨ (∃ j js, w = 0 :: j :: js ∧
        walkFrom config (config.get d).Destinations (j :: js) = some b ∧ b ∈ n1) ∨
      (∃ i is, w = (i + 1) :: is ∧ walkFrom config rest (i :: is) = some b ∧ b ∈ n2) := by
    intro w b hw
    match w, hw with
    | [], hw => simp [walkFrom] at hw
    | 0 :: [], hw =>
      left; simp [walkFrom, walkEnd] at hw; exact ⟨rfl, hw.symm⟩
    | 0 :: j :: js, hw =>
      right; left
      rw [walkFrom_cons_zero, walkEnd_cons] at hw
      exact ⟨j, js, rfl, hw, (mem1 b).2 ⟨_, hw⟩⟩
    | (i + 1) :: is, hw =>
      right; right
      rw [walkFrom_cons_succ] at hw
      exact ⟨i, is, rfl, hw, (mem2 b).2 ⟨_, hw⟩⟩
  have hdn1 : d ∉ n1 := fun h => fr1 d h (List.mem_cons_self _ _)
  have hdn2 : d ∉ n2 := fun h => fr2 d h (by simp)
  have hn12 : ∀ b, b ∈ n1 → b ∈ n2 → False := fun b h1 h2 => fr2 b h2 (by simp [h1])
  refine ⟨n2 ++ n1 ++ [d], by simp, ?_, ?_, ?_, ?_⟩
  · rw [List.nodup_append, List.nodup_append]
    refine ⟨⟨nd2, nd1, ?_⟩, by simp, ?_⟩
    · intro a h2 h1; exact hn12 a h1 h2
    · intro a ha hd2
      simp only [List.mem_singleton] at hd2
      subst hd2
      rcases List.mem_append.1 ha with h | h
      · exact hdn2 h
      · exact hdn1 h
  · intro b hb
    simp only [List.mem_append, List.mem_singleton] at hb
    rcases hb with (h | h) | h
    · intro hv; exact fr2 b h (by simp [hv])
    · intro hv; exact fr1 b h (by simp [hv])
    · subst h; exact hd
  · intro b
    constructor
    · intro hb
      simp only [List.mem_append, List.mem_singleton] at hb
      rcases hb with (h | h) | h
      · obtain ⟨w, hw⟩ := (mem2 b).1 h
        match w, hw with
        | [], hw => simp [walkFrom] at hw
        | i :: is, hw => exact ⟨(i + 1) :: is, by rw [walkFrom_cons_succ]; exact hw⟩
      · obtain ⟨w, hw⟩ := (mem1 b).1 h
        match w, hw with
        | [], hw => simp [walkFrom] at hw
        | j :: js, hw =>
          exact ⟨0 :: j :: js, by rw [walkFrom_cons_zero, walkEnd_cons]; exact hw⟩
      · subst h; exact ⟨[0], by simp [walkFrom, walkEnd]⟩
    · rintro ⟨w, hw⟩
      simp only [List.mem_append, List.mem_singleton]
      rcases key w b hw with ⟨_, h⟩ | ⟨_, _, _, _, h⟩ | ⟨_, _, _, _, h⟩
      · right; exact h
      · left; right; exact h
      · left; left; exact h
  · intro w w2 b hw hw2
    rcases key w b hw with ⟨e, hb⟩ | ⟨j, js, e, hj, hb⟩ | ⟨i, is, e, hi, hb⟩ <;>
    rcases key w2 b hw2 with ⟨e2, hb2⟩ | ⟨j2, js2, e2, hj2, hb2⟩ | ⟨i2, is2, e2, hi2, hb2⟩
    · rw [e, e2]
    · subst hb; exact absurd hb2 hdn1
    · subst hb; exact absurd hb2 hdn2
    · subst hb2; exact absurd hb hdn1
    · rw [e, e2, inj1 _ _ b hj hj2]
    · exact (hn12 b hb hb2).elim
    · subst hb2; exact absurd hb hdn2
    · exact (hn12 b hb2 hb).elim
    · have := inj2 _ _ b hi hi2
      simp only [List.cons.injEq] at this
      rw [e, e2, this.1, this.2]

theorem explored_subset (config : ConfigMap) (conf V V2 : List String)
    (h : Explored config conf V V2) : V ⊆ V2 := by
  obtain ⟨new, rfl, _⟩ := h
  exact List.subset_append_right _ _

theorem treeFrom_of_explored (config : ConfigMap) (conf V V2 : List String)
    (h : Explored config conf V V2) : TreeFrom config conf V := by
  obtain ⟨new, _, _, fr, mem, inj⟩ := h
  exact ⟨fun w b hw => fr b ((mem b).2 ⟨w, hw⟩), inj⟩

theorem detectLoop_cons (config : ConfigMap)
    (recurse : List String → String → List String → List String → Run (List String))
    (d : String) (rest : List String) (cycle : String) (trail V : List String) :
    detectLoop config recurse (d :: rest) cycle trail V =
      if d ∈ V then .fatal ("Cyclic copy found: " ++ (cycle ++ " -> " ++ d)) (trail ++ [d])
      else
        match (if (config.get d).Destinations = [] then Run.returned (d :: V)
               else recurse (config.get d).Destinations (cycle ++ " -> " ++ d) (trail ++ [d])
                 (d :: V)) with
        | .returned V1 => detectLoop config recurse rest cycle trail V1
        | .fatal msg t => .fatal msg t
        | .diverge => .diverge := by
  simp only [detectLoop]
  by_cases hd : d ∈ V
  · simp [hd]
  · by_cases he : (config.get d).Destinations = []
    · simp [hd, he]
    · have : (config.get d).Destinations.length ≠ 0 := by simpa using he
      simp only [hd, if_false, he, this, ne_eq, not_false_eq_true, if_true]

theorem detectLoop_cons_returned (config : ConfigMap)
    (recurse : List String → String → List String → List String → Run (List String))
    (d : String) (rest : List String) (cycle : String) (trail V V2 : List String)
    (h : detectLoop config recurse (d :: rest) cycle trail V = .returned V2) :
    d ∉ V ∧ ∃ V1,
      (((config.get d).Destinations ≠ [] ∧
          recurse (config.get d).Destinations (cycle ++ " -> " ++ d) (trail ++ [d]) (d :: V)
            = .returned V1) ∨
        ((config.get d).Destinations = [] ∧ V1 = d :: V)) ∧
      detectLoop config recurse rest cycle trail V1 = .returned V2 := by
  simp only [detectLoop] at h
  split at h
  · exact absurd h (by simp)
  · rename_i hd
    refine ⟨hd, ?_⟩
    split at h
    · rename_i hne
      split at h
      · rename_i V1 hrec
        exact ⟨V1, Or.inl ⟨by simpa using hne, hrec⟩, h⟩
      · exact absurd h (by simp)
      · exact absurd h (by simp)
    · rename_i he
      exact ⟨d :: V, Or.inr ⟨by simpa using he, rfl⟩, h⟩

/-- A normal return of `detectCycle` marks exactly the buckets reached by walks from
`conf`, each fresh and reached once. -/
theorem detectCycle_explored (config : ConfigMap) (fuel : Nat) :
    ∀ (conf : List String) (cycle : String) (trail V V2 : List String),
      detectCycle config fuel conf cycle trail V = .returned V2 → Explored config conf V V2 := by
  induction fuel with
  | zero => intro conf cycle trail V V2 h; simp [detectCycle] at h
  | succ fuel ihf =>
    intro conf
    induction conf with
    | nil =>
      intro cycle trail V V2 h
      simp only [detectCycle, detectLoop, Run.returned.injEq] at h
      subst h
      exact explored_nil config V
    | cons d rest ih =>
      intro cycle trail V V2 h
      rw [detectCycle] at h
      obtain ⟨hd, V1, h1, h2⟩ := detectLoop_cons_returned config _ d rest cycle trail V V2 h
      refine explored_cons config d rest V V1 V2 hd ?_
        (ih cycle trail V1 V2 (by rw [detectCycle]; exact h2))
      rcases h1 with ⟨_, h1⟩ | ⟨he, rfl⟩
      · exact ihf _ _ _ _ _ h1
      · rw [he]; exact explored_nil config _

/-! ## Termination -/

theorem unvisited_mono (config : ConfigMap) (V V2 : List String) (h : V ⊆ V2) :
    unvisited config V2 ≤ unvisited config V := by
  unfold unvisited
  apply Finset.card_le_card
  intro k hk
  simp only [Finset.mem_filter] at hk ⊢
  exact ⟨hk.1, fun hv => hk.2 (h hv)⟩

theorem unvisited_cons_lt (config : ConfigMap) (V : List String) (d : String)
    (hk : d ∈ config.keys) (hd : d ∉ V) : unvisited config (d :: V) < unvisited config V := by
  unfold unvisited
  apply Finset.card_lt_card
  rw [Finset.ssubset_iff_of_subset]
  · exact ⟨d, by simp [hk, hd], by simp⟩
  · intro k hk
    simp only [Finset.mem_filter] at hk ⊢
    exact ⟨hk.1, fun hv => hk.2 (List.mem_cons_of_mem _ hv)⟩

theorem unvisited_le_length (config : ConfigMap) (V : List String) :
    unvisited config V ≤ config.length := by
  unfold unvisited
  calc (config.keys.toFinset.filter (fun k => k ∉ V)).card
      ≤ config.keys.toFinset.card := Finset.card_filter_le _ _
    _ ≤ config.keys.length := List.toFinset_card_le _
    _ = config.length := by simp [ConfigMap.keys]

theorem unvisited_le_buckets (config : ConfigMap) (V : List String) :
    unvisited config V ≤ (buckets config).card := by
  unfold unvisited buckets
  refine le_trans (Finset.card_filter_le _ _) (Finset.card_le_card ?_)
  intro k hk
  simp only [List.mem_toFinset, List.mem_append] at hk ⊢
  exact Or.inl hk

/-- With a budget above the number of configured buckets still unvisited, `detectCycle`
does not run out of budget. -/
theorem detectCycle_ne_diverge (config : ConfigMap) (fuel : Nat) :
    ∀ (conf : List String) (cycle : String) (trail V : List String),
      unvisited config V < fuel → detectCycle config fuel conf cycle trail V ≠ .diverge := by
  induction fuel with
  | zero => intro conf cycle trail V h; exact absurd h (Nat.not_lt_zero _)
  | succ fuel ihf =>
    intro conf
    induction conf with
    | nil => intro cycle trail V _; simp [detectCycle, detectLoop]
    | cons d rest ih =>
      intro cycle trail V hV
      have ih2 : ∀ V1, unvisited config V1 < fuel + 1 →
          detectLoop config (detectCycle config fuel) rest cycle trail V1 ≠ .diverge := by
        intro V1 h1
        have := ih cycle trail V1 h1
        rwa [detectCycle] at this
      rw [detectCycle, detectLoop_cons]
      by_cases hd : d ∈ V
      · simp [hd]
      · simp only [hd, if_false]
        by_cases he : (config.get d).Destinations = []
        · simp only [he, if_true]
          exact ih2 _ (lt_of_le_of_lt
            (unvisited_mono config V (d :: V) (List.subset_cons_self _ _)) hV)
        · simp only [he, if_false]
          have hlt : unvisited config (d :: V) < fuel :=
            lt_of_lt_of_le
              (unvisited_cons_lt config V d (key_of_destinations_ne_nil config d he) hd)
              (Nat.lt_succ_iff.1 hV)
          have hrec := ihf (config.get d).Destinations (cycle ++ " -> " ++ d) (trail ++ [d])
            (d :: V) hlt
          cases hr : detectCycle config fuel (config.get d).Destinations
              (cycle ++ " -> " ++ d) (trail ++ [d]) (d :: V) with
          | returned V1 =>
            simp only
            have hsub := explored_subset config _ _ _ (detectCycle_explored config fuel _ _ _ _ _ hr)
            exact ih2 V1 (lt_of_le_of_lt (unvisited_mono config _ _ hsub)
              (Nat.lt_succ_of_lt hlt))
          | fatal msg t => simp
          | diverge => exact absurd hr hrec

theorem detectLoop_congr (config : ConfigMap)
    (r1 r2 : List String → String → List String → List String → Run (List String))
    (hr : ∀ conf cycle trail V, r1 conf cycle trail V ≠ .diverge →
      r2 conf cycle trail V = r1 conf cycle trail V) :
    ∀ (conf : List String) (cycle : String) (trail V : List String),
      detectLoop config r1 conf cycle trail V ≠ .diverge →
      detectLoop config r2 conf cycle trail V = detectLoop config r1 conf cycle trail V := by
  intro conf
  induction conf with
  | nil => intro cycle trail V _; simp [detectLoop]
  | cons d rest ih =>
    intro cycle trail V h
    rw [detectLoop_cons] at h ⊢
    rw [detectLoop_cons config r1]
    by_cases hd : d ∈ V
    · simp [hd]
    · simp only [hd, if_false] at h ⊢
      by_cases he : (config.get d).Destinations = []
      · simp only [he, if_true] at h ⊢
        exact ih _ _ _ h
      · simp only [he, if_false] at h ⊢
        cases hc : r1 (config.get d).Destinations (cycle ++ " -> " ++ d) (trail ++ [d])
            (d :: V) with
        | returned V1 =>
          rw [hc] at h
          rw [hr _ _ _ _ (by rw [hc]; simp), hc]
          exact ih _ _ _ h
        | fatal msg t => rw [hr _ _ _ _ (by rw [hc]; simp), hc]
        | diverge => rw [hc] at h; exact absurd rfl h

theorem detectCycle_fuel_succ (config : ConfigMap) (fuel : Nat) :
    ∀ (conf : List String) (cycle : String) (trail V : List String),
      detectCycle config fuel conf cycle trail V ≠ .diverge →
      detectCycle config (fuel + 1) conf cycle trail V
        = detectCycle config fuel conf cycle trail V := by
  induction fuel with
  | zero => intro conf cycle trail V h; simp [detectCycle] at h
  | succ fuel ih =>
    intro conf cycle trail V h
    rw [detectCycle] at h
    rw [detectCycle, detectCycle.eq_2 config fuel]
    exact detectLoop_congr config _ _ ih conf cycle trail V h

/-- A larger budget does not change a result that a smaller one already produced. -/
theorem detectCycle_fuel_le (config : ConfigMap) (fuel fuel2 : Nat) (hle : fuel ≤ fuel2)
    (conf : List String) (cycle : String) (trail V : List String)
    (h : detectCycle config fuel conf cycle trail V ≠ .diverge) :
    detectCycle config fuel2 conf cycle trail V = detectCycle config fuel conf cycle trail V := by
  induction hle with
  | refl => rfl
  | step _ ih =>
    rw [detectCycle_fuel_succ config _ conf cycle trail V (by rw [ih]; exact h), ih]

/-! ## Counting the recursive calls -/

theorem countLoop_cons (config : ConfigMap)
    (recurse : List String → String → List String → List String → Run (List String) × Nat)
    (d : String) (rest : List String) (cycle : String) (trail V : List String) :
    countLoop config recurse (d :: rest) cycle trail V =
      if d ∈ V then (.fatal ("Cyclic copy found: " ++ (cycle ++ " -> " ++ d)) (trail ++ [d]), 0)
      else if (config.get d).Destinations = [] then countLoop config recurse rest cycle trail (d :: V)
      else
        match recurse (config.get d).Destinations (cycle ++ " -> " ++ d) (trail ++ [d])
            (d :: V) with
        | (.returned V1, n) =>
          ((countLoop config recurse rest cycle trail V1).1,
            n + 1 + (countLoop config recurse rest cycle trail V1).2)
        | (.fatal msg t, n) => (.fatal msg t, n + 1)
        | (.diverge, n) => (.diverge, n + 1) := by
  simp only [countLoop]
  by_cases hd : d ∈ V
  · simp [hd]
  · by_cases he : (config.get d).Destinations = []
    · simp [hd, he]
    · have : (config.get d).Destinations.length ≠ 0 := by simpa using he
      simp only [hd, if_false, he, this, ne_eq, not_false_eq_true, if_true]

/-- Erasing the count from the instrumented loop gives `detectCycle`. -/
theorem detectCycleCalls_fst (config : ConfigMap) (fuel : Nat) :
    ∀ (conf : List String) (cycle : String) (trail V : List String),
      (detectCycleCalls config fuel conf cycle trail V).1
        = detectCycle config fuel conf cycle trail V := by
  induction fuel with
  | zero => intro conf cycle trail V; simp [detectCycleCalls, detectCycle]
  | succ fuel ihf =>
    intro conf
    induction conf with
    | nil => intro cycle trail V; simp [detectCycleCalls, detectCycle, countLoop, detectLoop]
    | cons d rest ih =>
      intro cycle trail V
      have ih2 : ∀ V1, (countLoop config (detectCycleCalls config fuel) rest cycle trail V1).1
          = detectLoop config (detectCycle config fuel) rest cycle trail V1 := by
        intro V1
        have := ih cycle trail V1
        rwa [detectCycleCalls, detectCycle] at this
      rw [detectCycleCalls, detectCycle, countLoop_cons, detectLoop_cons]
      by_cases hd : d ∈ V
      · simp [hd]
      · simp only [hd, if_false]
        by_cases he : (config.get d).Destinations = []
        · simp only [he, if_true]
          exact ih2 _
        · simp only [he, if_false]
          rw [← ihf]
          rcases hc : detectCycleCalls config fuel (config.get d).Destinations
              (cycle ++ " -> " ++ d) (trail ++ [d]) (d :: V) with ⟨r, n⟩
          cases r with
          | returned V1 => exact ih2 V1
          | fatal msg t => rfl
          | diverge => rfl

/-- The recursive calls are paid for by fresh marks: their number never exceeds the
number of configured buckets not yet visited, and on return the visited map has
shrunk that number by at least as much. -/
theorem detectCycleCalls_le (config : ConfigMap) (fuel : Nat) :
    ∀ (conf : List String) (cycle : String) (trail V : List String),
      (detectCycleCalls config fuel conf cycle trail V).2 ≤ unvisited config V ∧
      ∀ V2, (detectCycleCalls config fuel conf cycle trail V).1 = .returned V2 →
        (detectCycleCalls config fuel conf cycle trail V).2 + unvisited config V2
          ≤ unvisited config V := by
  induction fuel with
  | zero => intro conf cycle trail V; simp [detectCycleCalls]
  | succ fuel ihf =>
    intro conf
    induction conf with
    | nil =>
      intro cycle trail V
      simp only [detectCycleCalls, countLoop, Nat.zero_le, Run.returned.injEq, Nat.zero_add,
        true_and]
      intro V2 h; rw [h]
    | cons d rest ih =>
      intro cycle trail V
      have ih2 : ∀ V1,
          (countLoop config (detectCycleCalls config fuel) rest cycle trail V1).2
            ≤ unvisited config V1 ∧
          ∀ V2, (countLoop config (detectCycleCalls config fuel) rest cycle trail V1).1
              = .returned V2 →
            (countLoop config (detectCycleCalls config fuel) rest cycle trail V1).2
              + unvisited config V2 ≤ unvisited config V1 := by
        intro V1
        have := ih cycle trail V1
        rwa [detectCycleCalls] at this
      rw [detectCycleCalls, countLoop_cons]
      by_cases hd : d ∈ V
      · simp [hd]
      · simp only [hd, if_false]
        have hmono := unvisited_mono config V (d :: V) (List.subset_cons_self _ _)
        by_cases he : (config.get d).Destinations = []
        · simp only [he, if_true]
          obtain ⟨h1, h2⟩ := ih2 (d :: V)
          exact ⟨le_trans h1 hmono, fun V2 h => le_trans (h2 V2 h) hmono⟩
        · simp only [he, if_false]
          have hlt := unvisited_cons_lt config V d (key_of_destinations_ne_nil config d he) hd
          obtain ⟨h1, h2⟩ := ihf (config.get d).Destinations (cycle ++ " -> " ++ d)
            (trail ++ [d]) (d :: V)
          rcases hc : detectCycleCalls config fuel (config.get d).Destinations
              (cycle ++ " -> " ++ d) (trail ++ [d]) (d :: V) with ⟨r, n⟩
          rw [hc] at h1 h2
          cases r with
          | returned V1 =>
            simp only
            have h3 := h2 V1 rfl
            obtain ⟨h4, h5⟩ := ih2 V1
            refine ⟨by omega, fun V2 h => ?_⟩
            have := h5 V2 h
            omega
          | fatal msg t =>
            simp only [reduceCtorEq, false_implies, implies_true, and_true]
            simp only at h1
            omega
          | diverge =>
            simp only [reduceCtorEq, false_implies, implies_true, and_true]
            simp only at h1
            omega

/-- On return, every recursive call made is matched by an entry the visited map
gained. -/
theorem detectCycleCalls_marks (config : ConfigMap) (fuel : Nat) :
    ∀ (conf : List String) (cycle : String) (trail V V2 : List String),
      (detectCycleCalls config fuel conf cycle trail V).1 = .returned V2 →
      (detectCycleCalls config fuel conf cycle trail V).2 + V.length ≤ V2.length := by
  induction fuel with
  | zero => intro conf cycle trail V V2 h; simp [detectCycleCalls] at h
  | succ fuel ihf =>
    intro conf
    induction conf with
    | nil =>
      intro cycle trail V V2 h
      simp only [detectCycleCalls, countLoop, Run.returned.injEq] at h
      subst h
      simp [detectCycleCalls, countLoop]
    | cons d rest ih =>
      intro cycle trail V V2 h
      have ih2 : ∀ V1,
          (countLoop config (detectCycleCalls config fuel) rest cycle trail V1).1
              = .returned V2 →
            (countLoop config (detectCycleCalls config fuel) rest cycle trail V1).2
              + V1.length ≤ V2.length := by
        intro V1 h1
        have := ih cycle trail V1 V2 (by rw [detectCycleCalls]; exact h1)
        rwa [detectCycleCalls] at this
      rw [detectCycleCalls, countLoop_cons] at h ⊢
      by_cases hd : d ∈ V
      · simp [hd] at h
      · simp only [hd, if_false] at h ⊢
        by_cases he : (config.get d).Destinations = []
        · simp only [he, if_true] at h ⊢
          have := ih2 _ h
          simp only [List.length_cons] at this
          omega
        · simp only [he, if_false] at h ⊢
          have h2 := ihf (config.get d).Destinations (cycle ++ " -> " ++ d)
            (trail ++ [d]) (d :: V)
          rcases hc : detectCycleCalls config fuel (config.get d).Destinations
              (cycle ++ " -> " ++ d) (trail ++ [d]) (d :: V) with ⟨r, n⟩
          rw [hc] at h h2
          cases r with
          | returned V1 =>
            simp only at h ⊢
            have h3 := h2 V1 rfl
            have h4 := ih2 V1 h
            simp only [List.length_cons] at h3
            omega
          | fatal msg t => simp at h
          | diverge => simp at h

/-! ## Trees are accepted -/

theorem treeFrom_head_fresh (config : ConfigMap) (d : String) (rest V : List String)
    (h : TreeFrom config (d :: rest) V) : d ∉ V :=
  h.1 [0] d (by simp [walkFrom, walkEnd])

theorem treeFrom_head (config : ConfigMap) (d : String) (rest V : List String)
    (h : TreeFrom config (d :: rest) V) :
    TreeFrom config (config.get d).Destinations (d :: V) := by
  have lift : ∀ w b, walkFrom config (config.get d).Destinations w = some b →
      ∃ j js, w = j :: js ∧ walkFrom config (d :: rest) (0 :: j :: js) = some b := by
    intro w b hw
    match w, hw with
    | [], hw => simp [walkFrom] at hw
    | j :: js, hw => exact ⟨j, js, rfl, by rw [walkFrom_cons_zero, walkEnd_cons]; exact hw⟩
  constructor
  · intro w b hw hb
    obtain ⟨j, js, rfl, hw2⟩ := lift w b hw
    rcases List.mem_cons.1 hb with rfl | hb
    · have := h.2 _ _ b hw2 (show walkFrom config (b :: rest) [0] = some b by
        simp [walkFrom, walkEnd])
      simp at this
    · exact h.1 _ b hw2 hb
  · intro w w2 b hw hw2
    obtain ⟨j, js, rfl, h1⟩ := lift w b hw
    obtain ⟨j2, js2, rfl, h2⟩ := lift w2 b hw2
    have := h.2 _ _ b h1 h2
    simp only [List.cons.injEq, true_and] at this
    rw [this.1, this.2]

theorem treeFrom_rest (config : ConfigMap) (d : String) (rest V V1 : List String)
    (h : TreeFrom config (d :: rest) V)
    (h1 : Explored config (config.get d).Destinations (d :: V) V1) :
    TreeFrom config rest V1 := by
  have lift : ∀ w b, walkFrom config rest w = some b →
      ∃ i is, w = i :: is ∧ walkFrom config (d :: rest) ((i + 1) :: is) = some b := by
    intro w b hw
    match w, hw with
    | [], hw => simp [walkFrom] at hw
    | i :: is, hw => exact ⟨i, is, rfl, by rw [walkFrom_cons_succ]; exact hw⟩
  obtain ⟨n1, rfl, _, _, mem1, _⟩ := h1
  constructor
  · intro w b hw hb
    obtain ⟨i, is, rfl, hw2⟩ := lift w b hw
    rcases List.mem_append.1 hb with hb | hb
    · obtain ⟨w1, hw1⟩ := (mem1 b).1 hb
      match w1, hw1 with
      | [], hw1 => simp [walkFrom] at hw1
      | j :: js, hw1 =>
        have h0 : walkFrom config (d :: rest) (0 :: j :: js) = some b := by
          rw [walkFrom_cons_zero, walkEnd_cons]; exact hw1
        have := h.2 _ _ b hw2 h0
        simp at this
    · rcases List.mem_cons.1 hb with rfl | hb
      · have := h.2 _ _ b hw2 (show walkFrom config (b :: rest) [0] = some b by
          simp [walkFrom, walkEnd])
        simp at this
      · exact h.1 _ b hw2 hb
  · intro w w2 b hw hw2
    obtain ⟨i, is, rfl, h1⟩ := lift w b hw
    obtain ⟨i2, is2, rfl, h2⟩ := lift w2 b hw2
    have := h.2 _ _ b h1 h2
    simp only [List.cons.injEq, add_left_inj] at this
    rw [this.1, this.2]

/-- On a tree that avoids the visited map, `detectCycle` never takes the fatal
branch. -/
theorem detectCycle_ne_fatal (config : ConfigMap) (fuel : Nat) :
    ∀ (conf : List String) (cycle : String) (trail V : List String),
      TreeFrom config conf V →
      ∀ msg t, detectCycle config fuel conf cycle trail V ≠ .fatal msg t := by
  induction fuel with
  | zero => intro conf cycle trail V _ msg t; simp [detectCycle]
  | succ fuel ihf =>
    intro conf
    induction conf with
    | nil => intro cycle trail V _ msg t; simp [detectCycle, detectLoop]
    | cons d rest ih =>
      intro cycle trail V hT msg t
      have ih2 : ∀ V1, TreeFrom config rest V1 →
          detectLoop config (detectCycle config fuel) rest cycle trail V1 ≠ .fatal msg t := by
        intro V1 h1
        have := ih cycle trail V1 h1 msg t
        rwa [detectCycle] at this
      have hd := treeFrom_head_fresh config d rest V hT
      rw [detectCycle, detectLoop_cons]
      simp only [hd, if_false]
      by_cases he : (config.get d).Destinations = []
      · simp only [he, if_true]
        refine ih2 _ (treeFrom_rest config d rest V _ hT ?_)
        rw [he]; exact explored_nil config _
      · simp only [he, if_false]
        have hrec := ihf (config.get d).Destinations (cycle ++ " -> " ++ d) (trail ++ [d])
          (d :: V) (treeFrom_head config d rest V hT)
        cases hr : detectCycle config fuel (config.get d).Destinations
            (cycle ++ " -> " ++ d) (trail ++ [d]) (d :: V) with
        | returned V1 =>
          simp only
          exact ih2 V1 (treeFrom_rest config d rest V V1 hT
            (detectCycle_explored config fuel _ _ _ _ _ hr))
        | fatal msg2 t2 => exact absurd hr (hrec msg2 t2)
        | diverge => simp

/-! ## The fatal branch and the reported path -/

theorem detectCycle_fatal_message (config : ConfigMap) (fuel : Nat) :
    ∀ (conf : List String) (cycle : String) (trail V : List String) (msg : String)
      (t : List String), detectCycle config fuel conf cycle trail V = .fatal msg t →
      ∃ branch, msg = "Cyclic copy found: " ++ branch := by
  induction fuel with
  | zero => intro conf cycle trail V msg t h; simp [detectCycle] at h
  | succ fuel ihf =>
    intro conf
    induction conf with
    | nil => intro cycle trail V msg t h; simp [detectCycle, detectLoop] at h
    | cons d rest ih =>
      intro cycle trail V msg t h
      have ih2 : ∀ V1,
          detectLoop config (detectCycle config fuel) rest cycle trail V1 = .fatal msg t →
          ∃ branch, msg = "Cyclic copy found: " ++ branch := by
        intro V1 h1
        exact ih cycle trail V1 msg t (by rw [detectCycle]; exact h1)
      rw [detectCycle, detectLoop_cons] at h
      by_cases hd : d ∈ V
      · simp only [hd, if_true, Run.fatal.injEq] at h
        exact ⟨_, h.1.symm⟩
      · simp only [hd, if_false] at h
        by_cases he : (config.get d).Destinations = []
        · simp only [he, if_true] at h
          exact ih2 _ h
        · simp only [he, if_false] at h
          cases hr : detectCycle config fuel (config.get d).Destinations
              (cycle ++ " -> " ++ d) (trail ++ [d]) (d :: V) with
          | returned V1 => rw [hr] at h; exact ih2 V1 h
          | fatal msg2 t2 =>
            rw [hr] at h
            simp only [Run.fatal.injEq] at h
            obtain ⟨rfl, rfl⟩ := h
            exact ihf _ _ _ _ _ _ hr
          | diverge => rw [hr] at h; simp at h

theorem intercalate_go_concat (s d : String) :
    ∀ (l : List String) (acc : String),
      String.intercalate.go acc s (l ++ [d]) = String.intercalate.go acc s l ++ s ++ d := by
  intro l
  induction l with
  | nil => intro acc; simp [String.intercalate.go]
  | cons a l ih => intro acc; simp only [List.cons_append, String.intercalate.go]; exact ih _

/-- Appending `" -> " + d` to the rendering of a bucket sequence renders the sequence
extended by `d`. -/
theorem render_concat (trail : List String) (d : String) (h : trail ≠ []) :
    render (trail ++ [d]) = render trail ++ " -> " ++ d := by
  match trail, h with
  | a :: l, _ =>
    simp only [render, List.cons_append, String.intercalate]
    exact intercalate_go_concat " -> " d l a

theorem trailOK_grow (config : ConfigMap) (trail V V1 conf conf1 : List String)
    (h : TrailOK config trail V conf) (hsub : V ⊆ V1) (hconf : conf1 ⊆ conf) :
    TrailOK config trail V1 conf1 :=
  ⟨h.1, h.2.1, fun x hx => hsub (h.2.2.1 x hx), h.2.2.2.1,
    fun l hl d hd => h.2.2.2.2 l hl d (hconf hd)⟩

theorem trailOK_push (config : ConfigMap) (trail V conf : List String) (d : String)
    (h : TrailOK config trail V conf) (hd : d ∈ conf) (hV : d ∉ V) :
    TrailOK config (trail ++ [d]) (d :: V) (config.get d).Destinations := by
  obtain ⟨hne, hnd, hsub, hch, hlast⟩ := h
  refine ⟨by simp, ?_, ?_, ?_, ?_⟩
  · rw [List.nodup_append]
    refine ⟨hnd, List.nodup_singleton d, ?_⟩
    intro a ha ha2
    simp only [List.mem_singleton] at ha2
    subst ha2
    exact hV (hsub a ha)
  · intro x hx
    rcases List.mem_append.1 hx with hx | hx
    · exact List.mem_cons_of_mem _ (hsub x hx)
    · simp only [List.mem_singleton] at hx
      simp [hx]
  · refine List.Chain'.append hch (List.chain'_singleton d) ?_
    intro x hx y hy
    simp only [List.head?_cons, Option.mem_def, Option.some.injEq] at hy
    subst hy
    exact hlast x hx d hd
  · intro l hl e he
    rw [List.getLast?_concat] at hl
    simp only [Option.mem_def, Option.some.injEq] at hl
    subst hl
    exact he

/-- A fatal exit of `detectCycle` reports the bucket sequence from the root of the
traversal to the revisited bucket. -/
theorem detectCycle_fatal_trail (config : ConfigMap) (fuel : Nat) :
    ∀ (conf : List String) (cycle : String) (trail V : List String) (msg : String)
      (t : List String), cycle = render trail → TrailOK config trail V conf →
      detectCycle config fuel conf cycle trail V = .fatal msg t →
      Reported config trail msg t := by
  induction fuel with
  | zero => intro conf cycle trail V msg t _ _ h; simp [detectCycle] at h
  | succ fuel ihf =>
    intro conf
    induction conf with
    | nil => intro cycle trail V msg t _ _ h; simp [detectCycle, detectLoop] at h
    | cons d rest ih =>
      intro cycle trail V msg t hc hT h
      have ih2 : ∀ V1, V ⊆ V1 →
          detectLoop config (detectCycle config fuel) rest cycle trail V1 = .fatal msg t →
          Reported config trail msg t := by
        intro V1 hs h1
        refine ih cycle trail V1 msg t hc
          (trailOK_grow config trail V V1 _ _ hT hs (List.subset_cons_self _ _)) ?_
        rw [detectCycle]; exact h1
      rw [detectCycle, detectLoop_cons] at h
      by_cases hd : d ∈ V
      · simp only [hd, if_true, Run.fatal.injEq] at h
        obtain ⟨hm, ht⟩ := h
        refine ⟨?_, [], d, by simp [← ht], by simpa using hT.2.1, ?_⟩
        · rw [← hm, ← ht, render_concat trail d hT.1, hc]
        · rw [← ht]
          refine List.Chain'.append hT.2.2.2.1 (List.chain'_singleton d) ?_
          intro x hx y hy
          simp only [List.head?_cons, Option.mem_def, Option.some.injEq] at hy
          subst hy
          exact hT.2.2.2.2 x hx d (List.mem_cons_self _ _)
      · simp only [hd, if_false] at h
        by_cases he : (config.get d).Destinations = []
        · simp only [he, if_true] at h
          exact ih2 _ (List.subset_cons_self _ _) h
        · simp only [he, if_false] at h
          have hpush := trailOK_push config trail V (d :: rest) d hT (List.mem_cons_self _ _) hd
          cases hr : detectCycle config fuel (config.get d).Destinations
              (cycle ++ " -> " ++ d) (trail ++ [d]) (d :: V) with
          | returned V1 =>
            rw [hr] at h
            have hsub := explored_subset config _ _ _
              (detectCycle_explored config fuel _ _ _ _ _ hr)
            exact ih2 V1 (fun x hx => hsub (List.mem_cons_of_mem _ hx)) h
          | fatal msg2 t2 =>
            rw [hr] at h
            simp only [Run.fatal.injEq] at h
            obtain ⟨rfl, rfl⟩ := h
            obtain ⟨hm, mid, e, ht, hn, hch⟩ := ihf _ _ _ _ _ _
              (by rw [hc, render_concat trail d hT.1]) hpush hr
            exact ⟨hm, d :: mid, e, by simpa using ht, by simpa using hn, hch⟩
          | diverge => rw [hr] at h; simp at h

/-- A root that lies on a cycle is not traversed to a normal return. -/
theorem root_on_cycle_not_returned (config : ConfigMap) (fuel : Nat) (b : String)
    (V : List String) (hcyc : Relation.TransGen (edge config) b b)
    (h : detectCycle config fuel (config.get b).Destinations b [b] [b] = .returned V) :
    False := by
  obtain ⟨w, hne, hw⟩ := walk_of_transGen config b b hcyc
  have hT := treeFrom_of_explored config _ _ _ (detectCycle_explored config fuel _ _ _ _ _ h)
  match w, hne, hw with
  | i :: is, _, hw =>
    rw [walkEnd_cons] at hw
    exact hT.1 _ b hw (List.mem_singleton_self b)

/-! ## The bucket that ends the reported path -/

theorem walkNodes_concat (config : ConfigMap) :
    ∀ (p : List Nat) (k u d : String) (j : Nat), walkEnd config k p = some u →
      (config.get u).Destinations[j]? = some d →
      walkNodes config k (p ++ [j]) = walkNodes config k p ++ [d] := by
  intro p
  induction p with
  | nil =>
    intro k u d j hp hj
    simp only [walkEnd, Option.some.injEq] at hp
    subst hp
    simp [walkNodes, hj]
  | cons i is ih =>
    intro k u d j hp hj
    cases hc : (config.get k).Destinations[i]? with
    | none => simp [walkEnd, hc] at hp
    | some c =>
      simp only [walkEnd, hc] at hp
      simp only [List.cons_append, walkNodes, hc]
      exact congrArg (k :: ·) (ih c u d j hp hj)

theorem walkNodes_getLast (config : ConfigMap) :
    ∀ (w : List Nat) (k d : String), walkEnd config k w = some d →
      (walkNodes config k w).getLast? = some d := by
  intro w
  induction w with
  | nil =>
    intro k d h
    simp only [walkEnd, Option.some.injEq] at h
    simp [walkNodes, h]
  | cons i is ih =>
    intro k d h
    cases hc : (config.get k).Destinations[i]? with
    | none => simp [walkEnd, hc] at h
    | some c =>
      simp only [walkEnd, hc] at h
      simp only [walkNodes, hc]
      rw [List.getLast?_cons, ih c d h]
      rfl

theorem lex_concat_succ (p : List Nat) (j : Nat) (x : List Nat) :
    List.Lex (· < ·) (p ++ j :: x) (p ++ [j + 1]) :=
  List.Lex.append_left _ (List.Lex.rel (Nat.lt_succ_self j)) p

theorem lex_extend (p : List Nat) (a : Nat) (x : List Nat) :
    List.Lex (· < ·) p (p ++ a :: x) := by
  have h := List.Lex.append_left (· < ·) (List.Lex.nil : List.Lex (· < ·) [] (a :: x)) p
  simpa using h

theorem lex_trans (a b c : List Nat) (h1 : List.Lex (· < ·) a b)
    (h2 : List.Lex (· < ·) b c) : List.Lex (· < ·) a c :=
  @IsTrans.trans _ (List.Lex (· < ·)) _ a b c h1 h2

theorem lex_ne (a b : List Nat) (h : List.Lex (· < ·) a b) : a ≠ b := by
  rintro rfl
  exact @IsIrrefl.irrefl _ (List.Lex (· < ·)) _ a h

theorem drop_eq_cons {α : Type} (l : List α) (j : Nat) (d : α) (rest : List α)
    (h : d :: rest = l.drop j) : l[j]? = some d ∧ rest = l.drop (j + 1) := by
  constructor
  · have := List.getElem?_drop l j 0
    rw [← h] at this
    simpa using this.symm
  · rw [← List.tail_drop, ← h]
    rfl

/-- A fatal exit happens at a bucket that the traversal from the root `k` had reached
before: `w` is the walk that the reported path follows, `w2` a walk that comes earlier in
the order of the traversal and ends in the same bucket. -/
theorem detectCycle_fatal_walk (config : ConfigMap) (k : String) (fuel : Nat) :
    ∀ (conf : List String) (cycle : String) (trail V : List String) (msg : String)
      (t : List String) (p : List Nat) (u : String) (j : Nat),
      walkEnd config k p = some u → conf = (config.get u).Destinations.drop j →
      trail = walkNodes config k p →
      (∀ b ∈ V, ∃ w2, walkEnd config k w2 = some b ∧ List.Lex (· < ·) w2 (p ++ [j])) →
      detectCycle config fuel conf cycle trail V = .fatal msg t →
      ∃ w w2 d, w ≠ [] ∧ t = walkNodes config k w ∧ walkEnd config k w = some d ∧
        walkEnd config k w2 = some d ∧ List.Lex (· < ·) w2 w := by
  induction fuel with
  | zero => intro conf cycle trail V msg t p u j _ _ _ _ h; simp [detectCycle] at h
  | succ fuel ihf =>
    intro conf
    induction conf with
    | nil => intro cycle trail V msg t p u j _ _ _ _ h; simp [detectCycle, detectLoop] at h
    | cons d rest ih =>
      intro cycle trail V msg t p u j hp hconf htrail hV h
      obtain ⟨hj, hrest⟩ := drop_eq_cons _ j d rest hconf
      have hend : walkEnd config k (p ++ [j]) = some d :=
        (walkEnd_concat config p j k d).2 ⟨u, hp, hj⟩
      have hnext : ∀ V1, (∀ b ∈ V1, ∃ w2, walkEnd config k w2 = some b ∧
            List.Lex (· < ·) w2 (p ++ [j + 1])) →
          detectLoop config (detectCycle config fuel) rest cycle trail V1 = .fatal msg t →
          ∃ w w2 d, w ≠ [] ∧ t = walkNodes config k w ∧ walkEnd config k w = some d ∧
            walkEnd config k w2 = some d ∧ List.Lex (· < ·) w2 w := by
        intro V1 h1 hf
        exact ih cycle trail V1 msg t p u (j + 1) hp hrest htrail h1
          (by rw [detectCycle]; exact hf)
      have hold : ∀ b ∈ d :: V, ∀ x, ∃ w2, walkEnd config k w2 = some b ∧
          List.Lex (· < ·) w2 (p ++ j :: 0 :: x) ∧ List.Lex (· < ·) w2 (p ++ [j + 1]) := by
        intro b hb x
        rcases List.mem_cons.1 hb with rfl | hb
        · refine ⟨p ++ [j], hend, ?_, lex_concat_succ p j []⟩
          have := lex_extend (p ++ [j]) 0 x
          simpa using this
        · obtain ⟨w2, hw2, hlt⟩ := hV b hb
          refine ⟨w2, hw2, lex_trans _ _ _ hlt ?_, lex_trans _ _ _ hlt (lex_concat_succ p j [])⟩
          have := lex_extend (p ++ [j]) 0 x
          simpa using this
      rw [detectCycle, detectLoop_cons] at h
      by_cases hd : d ∈ V
      · simp only [hd, if_true, Run.fatal.injEq] at h
        obtain ⟨w2, hw2, hlt⟩ := hV d hd
        refine ⟨p ++ [j], w2, d, by simp, ?_, hend, hw2, hlt⟩
        rw [← h.2, htrail, walkNodes_concat config p k u d j hp hj]
      · simp only [hd, if_false] at h
        by_cases he : (config.get d).Destinations = []
        · simp only [he, if_true] at h
          refine hnext _ (fun b hb => ?_) h
          obtain ⟨w2, hw2, _, hlt⟩ := hold b hb []
          exact ⟨w2, hw2, hlt⟩
        · simp only [he, if_false] at h
          cases hr : detectCycle config fuel (config.get d).Destinations
              (cycle ++ " -> " ++ d) (trail ++ [d]) (d :: V) with
          | returned V1 =>
            rw [hr] at h
            obtain ⟨new, rfl, _, _, hmem, _⟩ := detectCycle_explored config fuel _ _ _ _ _ hr
            refine hnext _ (fun b hb => ?_) h
            rcases List.mem_append.1 hb with hb | hb
            · obtain ⟨x, hx⟩ := (hmem b).1 hb
              match x, hx with
              | [], hx => simp [walkFrom] at hx
              | i :: is, hx =>
                rw [← walkEnd_cons] at hx
                refine ⟨p ++ ([j] ++ i :: is), ?_, lex_concat_succ p j (i :: is)⟩
                rw [← List.append_assoc, walkEnd_append, hend]
                exact hx
            · obtain ⟨w2, hw2, _, hlt⟩ := hold b hb []
              exact ⟨w2, hw2, hlt⟩
          | fatal msg2 t2 =>
            rw [hr] at h
            simp only [Run.fatal.injEq] at h
            obtain ⟨rfl, rfl⟩ := h
            refine ihf _ _ _ _ _ _ (p ++ [j]) d 0 hend (by simp)
              (by rw [htrail, walkNodes_concat config p k u d j hp hj]) ?_ hr
            intro b hb
            obtain ⟨w2, hw2, hlt, _⟩ := hold b hb []
            exact ⟨w2, hw2, by simpa using hlt⟩
          | diverge => rw [hr] at h; simp at h

/-! ## The loop over the roots -/

theorem panic_returned_iff (config : ConfigMap) (fuel : Nat) (order : List (String × Config)) :
    PanicIfCopyCycleFound config fuel order = .returned () ↔
      ∀ kv ∈ order, ∃ V, detectCycle config fuel kv.2.Destinations kv.1 [kv.1] [kv.1]
        = .returned V := by
  induction order with
  | nil => simp [PanicIfCopyCycleFound]
  | cons kv rest ih =>
    obtain ⟨k, v⟩ := kv
    simp only [PanicIfCopyCycleFound, List.mem_cons, forall_eq_or_imp]
    cases hr : detectCycle config fuel v.Destinations k [k] [k] with
    | returned V => simp [ih]
    | fatal msg t => simp
    | diverge => simp

theorem panic_fatal_inv (config : ConfigMap) (fuel : Nat) (order : List (String × Config))
    (msg : String) (t : List String)
    (h : PanicIfCopyCycleFound config fuel order = .fatal msg t) :
    ∃ kv ∈ order, detectCycle config fuel kv.2.Destinations kv.1 [kv.1] [kv.1]
      = .fatal msg t := by
  induction order with
  | nil => simp [PanicIfCopyCycleFound] at h
  | cons kv rest ih =>
    obtain ⟨k, v⟩ := kv
    simp only [PanicIfCopyCycleFound] at h
    cases hr : detectCycle config fuel v.Destinations k [k] [k] with
    | returned V =>
      rw [hr] at h
      obtain ⟨kv, hkv, h2⟩ := ih h
      exact ⟨kv, List.mem_cons_of_mem _ hkv, h2⟩
    | fatal msg2 t2 =>
      rw [hr] at h
      simp only [Run.fatal.injEq] at h
      obtain ⟨rfl, rfl⟩ := h
      exact ⟨(k, v), List.mem_cons_self _ _, hr⟩
    | diverge => rw [hr] at h; simp at h

theorem panic_ne_diverge_of (config : ConfigMap) (fuel : Nat)
    (hfuel : ∀ V, unvisited config V < fuel)
    (order : List (String × Config)) : PanicIfCopyCycleFound config fuel order ≠ .diverge := by
  induction order with
  | nil => simp [PanicIfCopyCycleFound]
  | cons kv rest ih =>
    obtain ⟨k, v⟩ := kv
    simp only [PanicIfCopyCycleFound]
    have := detectCycle_ne_diverge config fuel v.Destinations k [k] [k] (hfuel _)
    cases hr : detectCycle config fuel v.Destinations k [k] [k] with
    | returned V => simpa using ih
    | fatal msg t => simp
    | diverge => exact absurd hr this

theorem panic_ne_diverge (config : ConfigMap) (fuel : Nat) (hfuel : config.length < fuel)
    (order : List (String × Config)) : PanicIfCopyCycleFound config fuel order ≠ .diverge :=
  panic_ne_diverge_of config fuel
    (fun V => lt_of_le_of_lt (unvisited_le_length config V) hfuel) order

theorem panic_fuel_le (config : ConfigMap) (fuel fuel2 : Nat) (hle : fuel ≤ fuel2)
    (order : List (String × Config))
    (h : PanicIfCopyCycleFound config fuel order ≠ .diverge) :
    PanicIfCopyCycleFound config fuel2 order = PanicIfCopyCycleFound config fuel order := by
  induction order with
  | nil => simp [PanicIfCopyCycleFound]
  | cons kv rest ih =>
    obtain ⟨k, v⟩ := kv
    simp only [PanicIfCopyCycleFound] at h ⊢
    cases hr : detectCycle config fuel v.Destinations k [k] [k] with
    | returned V =>
      rw [hr] at h
      rw [detectCycle_fuel_le config fuel fuel2 hle _ _ _ _ (by rw [hr]; simp), hr]
      exact ih h
    | fatal msg t =>
      rw [detectCycle_fuel_le config fuel fuel2 hle _ _ _ _ (by rw [hr]; simp), hr]
    | diverge => rw [hr] at h; exact absurd rfl h

/-! ## Characterisation of the verdict -/

theorem noRevisit_iff_treeFrom (config : ConfigMap) (k : String) :
    NoRevisit config k ↔ TreeFrom config (config.get k).Destinations [k] := by
  constructor
  · rintro ⟨h1, h2⟩
    have hk : ∀ w b, walkFrom config (config.get k).Destinations w = some b →
        walkEnd config k w = some b ∧ w ≠ [] ∧ b ≠ k := by
      intro w b hw
      match w, hw with
      | [], hw => simp [walkFrom] at hw
      | i :: is, hw =>
        rw [← walkEnd_cons] at hw
        refine ⟨hw, by simp, ?_⟩
        rintro rfl
        exact h1 _ (by simp) hw
    constructor
    · intro w b hw hb
      simp only [List.mem_singleton] at hb
      exact (hk w b hw).2.2 hb
    · intro w w2 b hw hw2
      exact h2 b (hk w b hw).2.2 w w2 (hk w b hw).1 (hk w2 b hw2).1
  · rintro ⟨h1, h2⟩
    constructor
    · intro w hne hw
      match w, hne, hw with
      | i :: is, _, hw =>
        rw [walkEnd_cons] at hw
        exact h1 _ _ hw (by simp)
    · intro b hb w w2 hw hw2
      match w, w2, hw, hw2 with
      | [], _, hw, _ => simp only [walkEnd, Option.some.injEq] at hw; exact absurd hw.symm hb
      | _ :: _, [], _, hw2 =>
        simp only [walkEnd, Option.some.injEq] at hw2; exact absurd hw2.symm hb
      | i :: is, j :: js, hw, hw2 =>
        rw [walkEnd_cons] at hw hw2
        exact h2 _ _ b hw hw2

/-- Validation returns exactly when no traversal from a configured root reaches a bucket
twice. -/
theorem panic_returned_iff_noRevisit (config : ConfigMap) (order : List (String × Config))
    (fuel : Nat) (hnd : config.keys.Nodup) (hperm : order.Perm config)
    (hfuel : config.length < fuel) :
    PanicIfCopyCycleFound config fuel order = .returned () ↔
      ∀ k ∈ config.keys, NoRevisit config k := by
  rw [panic_returned_iff]
  constructor
  · intro h k hk
    obtain ⟨⟨k2, v⟩, hmem, rfl⟩ := List.mem_map.1 hk
    obtain ⟨V, hV⟩ := h (k2, v) (hperm.mem_iff.2 hmem)
    rw [noRevisit_iff_treeFrom, get_of_mem config hnd k2 v hmem]
    exact treeFrom_of_explored config _ _ _ (detectCycle_explored config fuel _ _ _ _ _ hV)
  · intro h kv hkv
    obtain ⟨k, v⟩ := kv
    have hmem : (k, v) ∈ config := hperm.mem_iff.1 hkv
    have hT := (noRevisit_iff_treeFrom config k).1 (h k (List.mem_map.2 ⟨_, hmem, rfl⟩))
    rw [get_of_mem config hnd k v hmem] at hT
    have h1 := detectCycle_ne_fatal config fuel v.Destinations k [k] [k] hT
    have h2 := detectCycle_ne_diverge config fuel v.Destinations k [k] [k]
      (lt_of_le_of_lt (unvisited_le_length config _) hfuel)
    cases hr : detectCycle config fuel v.Destinations k [k] [k] with
    | returned V => exact ⟨V, rfl⟩
    | fatal msg t => exact absurd hr (h1 msg t)
    | diverge => exact absurd hr h2

theorem noRevisit_iff_inj (config : ConfigMap) (k : String) :
    NoRevisit config k ↔
      ∀ w w2 b, walkEnd config k w = some b → walkEnd config k w2 = some b → w = w2 := by
  constructor
  · rintro ⟨h1, h2⟩ w w2 b hw hw2
    by_cases hb : b = k
    · subst hb
      have e1 : w = [] := by
        by_contra hne; exact h1 w hne hw
      have e2 : w2 = [] := by
        by_contra hne; exact h1 w2 hne hw2
      rw [e1, e2]
    · exact h2 b hb w w2 hw hw2
  · intro h
    refine ⟨fun w hne hw => hne (h w [] k hw rfl), fun b _ w w2 hw hw2 => h w w2 b hw hw2⟩

theorem noRevisit_iff_locallyTree (config : ConfigMap) (k : String) :
    NoRevisit config k ↔ LocallyTree config k := by
  rw [noRevisit_iff_inj]
  constructor
  · intro h
    refine ⟨?_, ?_, ?_⟩
    · intro hc
      obtain ⟨w, hne, hw⟩ := walk_of_transGen config k k hc
      exact hne (h w [] k hw rfl)
    · intro u hu
      obtain ⟨w, hw⟩ := walk_of_reflTransGen config k u hu
      rw [List.nodup_iff_getElem?_ne_getElem?]
      intro i j hij hj he
      have hi : i < (config.get u).Destinations.length := lt_trans hij hj
      have h1 : walkEnd config k (w ++ [i]) = some ((config.get u).Destinations[i]) :=
        (walkEnd_concat config w i k _).2 ⟨u, hw, List.getElem?_eq_getElem hi⟩
      have h2 : walkEnd config k (w ++ [j]) = some ((config.get u).Destinations[i]) :=
        (walkEnd_concat config w j k _).2 ⟨u, hw, by rw [← he, List.getElem?_eq_getElem hi]⟩
      have := h _ _ _ h1 h2
      simp only [List.append_cancel_left_eq, List.cons.injEq, and_true] at this
      omega
    · intro u u2 b hu hu2 hb hb2
      obtain ⟨w, hw⟩ := walk_of_reflTransGen config k u hu
      obtain ⟨w2, hw2⟩ := walk_of_reflTransGen config k u2 hu2
      obtain ⟨i, hi⟩ := List.getElem?_of_mem hb
      obtain ⟨j, hj⟩ := List.getElem?_of_mem hb2
      have h1 := (walkEnd_concat config w i k b).2 ⟨u, hw, hi⟩
      have h2 := (walkEnd_concat config w2 j k b).2 ⟨u2, hw2, hj⟩
      have := List.append_inj_left' (h _ _ _ h1 h2) rfl
      rw [this, hw2] at hw
      exact (Option.some.inj hw).symm
  · rintro ⟨h1, h2, h3⟩ w
    induction w using List.reverseRecOn with
    | nil =>
      intro w2 b hw hw2
      simp only [walkEnd, Option.some.injEq] at hw
      subst hw
      by_contra hne
      exact h1 (transGen_of_walk config w2 k k (fun e => hne e.symm) hw2)
    | append_singleton w i ih =>
      intro w2 b hw hw2
      obtain ⟨u, hu, hi⟩ := (walkEnd_concat config w i k b).1 hw
      induction w2 using List.reverseRecOn with
      | nil =>
        simp only [walkEnd, Option.some.injEq] at hw2
        subst hw2
        exact absurd (transGen_of_walk config (w ++ [i]) k k (by simp) hw) h1
      | append_singleton w2 j _ =>
        obtain ⟨u2, hu2, hj⟩ := (walkEnd_concat config w2 j k b).1 hw2
        have hr := reflTransGen_of_walk config w k u hu
        have hr2 := reflTransGen_of_walk config w2 k u2 hu2
        have e : u = u2 := h3 u u2 b hr hr2 (List.getElem?_mem hi) (List.getElem?_mem hj)
        subst e
        have hlt : i < (config.get u).Destinations.length := by
          by_contra hge
          rw [List.getElem?_eq_none (not_lt.1 hge)] at hi
          exact absurd hi (by simp)
        have eij : i = j := List.getElem?_inj hlt (h2 u hr) (by rw [hi, hj])
        rw [ih w2 u hu hu2, eij]

theorem edge_of_sameTopology (config config2 : ConfigMap) (h : SameTopology config config2) :
    edge config = edge config2 := by
  funext a d
  exact propext (h.2 a).mem_iff

theorem locallyTree_of_sameTopology (config config2 : ConfigMap)
    (h : SameTopology config config2) (k : String) :
    LocallyTree config k ↔ LocallyTree config2 k := by
  unfold LocallyTree
  rw [edge_of_sameTopology config config2 h]
  have : ∀ u, (config.get u).Destinations.Nodup ↔ (config2.get u).Destinations.Nodup :=
    fun u => (h.2 u).nodup_iff
  simp only [this]

/-- Two listings of one topology get the same verdict, whatever the order in which the
keys and the destinations are listed and traversed. -/
theorem verdict_of_sameTopology (config config2 : ConfigMap)
    (order order2 : List (String × Config)) (fuel fuel2 : Nat)
    (hnd : config.keys.Nodup) (hnd2 : config2.keys.Nodup) (hsame : SameTopology config config2)
    (hperm : order.Perm config) (hperm2 : order2.Perm config2)
    (hfuel : config.length < fuel) (hfuel2 : config2.length < fuel2) :
    PanicIfCopyCycleFound config fuel order = .returned () ↔
      PanicIfCopyCycleFound config2 fuel2 order2 = .returned () := by
  rw [panic_returned_iff_noRevisit config order fuel hnd hperm hfuel,
    panic_returned_iff_noRevisit config2 order2 fuel2 hnd2 hperm2 hfuel2]
  constructor
  · intro h k hk
    rw [noRevisit_iff_locallyTree, ← locallyTree_of_sameTopology config config2 hsame,
      ← noRevisit_iff_locallyTree]
    exact h k (hsame.1.mem_iff.2 hk)
  · intro h k hk
    rw [noRevisit_iff_locallyTree, locallyTree_of_sameTopology config config2 hsame,
      ← noRevisit_iff_locallyTree]
    exact h k (hsame.1.mem_iff.1 hk)

/-! ## The diamond -/

theorem diamond_edge_rank (a d : String) (h : edge diamond a d) :
    diamondRank a < diamondRank d := by
  unfold edge at h
  by_cases hA : a = "A"
  · subst hA
    have : d = "B" ∨ d = "C" := by simpa [ConfigMap.get, List.lookup, diamond, bucket] using h
    rcases this with rfl | rfl <;> decide
  · by_cases hB : a = "B"
    · subst hB
      have : d = "D" := by simpa [ConfigMap.get, List.lookup, diamond, bucket] using h
      subst this; decide
    · by_cases hC : a = "C"
      · subst hC
        have : d = "D" := by simpa [ConfigMap.get, List.lookup, diamond, bucket] using h
        subst this; decide
      · have eA : (a == "A") = false := by simpa using hA
        have eB : (a == "B") = false := by simpa using hB
        have eC : (a == "C") = false := by simpa using hC
        have hg : diamond.get a = Config.zero := by
          simp [ConfigMap.get, List.lookup, diamond, eA, eB, eC]
        rw [hg] at h
        simp [Config.zero] at h

theorem diamond_acyclic (b : String) : ¬ Relation.TransGen (edge diamond) b b := by
  have key : ∀ a d, Relation.TransGen (edge diamond) a d → diamondRank a < diamondRank d := by
    intro a d h
    induction h with
    | single h => exact diamond_edge_rank _ _ h
    | tail _ h ih => exact lt_trans ih (diamond_edge_rank _ _ h)
  intro h
  exact lt_irrefl _ (key b b h)

theorem diamond_orders (order : List (String × Config)) (h : order.Perm diamond) :
    order = [("A", bucket ["B", "C"]), ("B", bucket ["D"]), ("C", bucket ["D"])] ∨
    order = [("A", bucket ["B", "C"]), ("C", bucket ["D"]), ("B", bucket ["D"])] ∨
    order = [("B", bucket ["D"]), ("A", bucket ["B", "C"]), ("C", bucket ["D"])] ∨
    order = [("B", bucket ["D"]), ("C", bucket ["D"]), ("A", bucket ["B", "C"])] ∨
    order = [("C", bucket ["D"]), ("A", bucket ["B", "C"]), ("B", bucket ["D"])] ∨
    order = [("C", bucket ["D"]), ("B", bucket ["D"]), ("A", bucket ["B", "C"])] := by
  have hlen := h.length_eq
  have hnd : order.Nodup := h.nodup_iff.2 (by decide)
  match order, hlen, h, hnd with
  | [x, y, z], _, h, hnd =>
    have hx : x ∈ diamond := h.subset (by simp)
    have hy : y ∈ diamond := h.subset (by simp)
    have hz : z ∈ diamond := h.subset (by simp)
    simp only [diamond, List.mem_cons, List.mem_singleton, List.not_mem_nil, or_false] at hx hy hz
    rcases hx with rfl | rfl | rfl <;> rcases hy with rfl | rfl | rfl <;>
      rcases hz with rfl | rfl | rfl <;> simp at hnd <;> simp

/-! ## Main results on topology validation -/

/-- C1: when some bucket of a topology reaches itself along one or more destination
edges - a bucket that lists itself included - `PanicIfCopyCycleFound` ends in the
`Cyclic copy found` fatal branch on every listing `config` of that topology (the
destination lists in any order) and in every order `order` in which `range config` yields
the keys. -/
theorem cyclic_topology_is_fatal (topology config : ConfigMap)
    (order : List (String × Config)) (fuel : Nat) (hsame : SameTopology topology config)
    (hperm : order.Perm config) (hfuel : config.length < fuel) (b : String)
    (hcyc : Relation.TransGen (edge topology) b b) :
    ∃ branch t, PanicIfCopyCycleFound config fuel order
      = .fatal ("Cyclic copy found: " ++ branch) t := by
  rw [edge_of_sameTopology topology config hsame] at hcyc
  cases hr : PanicIfCopyCycleFound config fuel order with
  | returned u =>
    exfalso
    have hmem : (b, config.get b) ∈ order :=
      hperm.mem_iff.2
        (mem_of_destinations_ne_nil config b (out_edge_of_transGen config b b hcyc))
    obtain ⟨V, hV⟩ := (panic_returned_iff config fuel order).1 hr _ hmem
    exact root_on_cycle_not_returned config fuel b V hcyc hV
  | fatal msg t =>
    obtain ⟨kv, _, hkv⟩ := panic_fatal_inv config fuel order msg t hr
    obtain ⟨branch, rfl⟩ := detectCycle_fatal_message config fuel _ _ _ _ _ _ hkv
    exact ⟨branch, t, rfl⟩
  | diverge => exact absurd hr (panic_ne_diverge config fuel hfuel order)

/-- C1 at the topology `A: [A]`. -/
theorem cyclic_topology_is_fatal_witness :
    SameTopology selfLoop selfLoop ∧ selfLoop.Perm selfLoop ∧ selfLoop.length < 2 ∧
      Relation.TransGen (edge selfLoop) "A" "A" ∧
      ∃ branch t, PanicIfCopyCycleFound selfLoop 2 selfLoop
        = .fatal ("Cyclic copy found: " ++ branch) t :=
  have hs : SameTopology selfLoop selfLoop := ⟨List.Perm.refl _, fun _ => List.Perm.refl _⟩
  have hc : Relation.TransGen (edge selfLoop) "A" "A" :=
    Relation.TransGen.single (show "A" ∈ (selfLoop.get "A").Destinations by decide)
  ⟨hs, List.Perm.refl _, by decide, hc,
    cyclic_topology_is_fatal selfLoop selfLoop selfLoop 2 hs (List.Perm.refl _) (by decide)
      "A" hc⟩

/-- C2: the diamond `A -> B, A -> C, B -> D, C -> D` has no cycle, and yet
`PanicIfCopyCycleFound` ends in the fatal branch on it, in every order of the keys and
with every sufficient budget: the traversal from `A` marks `D` below `B` and meets it
again below `C`. -/
theorem diamond_is_rejected (order : List (String × Config)) (fuel : Nat)
    (hperm : order.Perm diamond) (hfuel : 3 < fuel) :
    (∀ b, ¬ Relation.TransGen (edge diamond) b b) ∧
      PanicIfCopyCycleFound diamond fuel order
        = .fatal "Cyclic copy found: A -> C -> D" ["A", "C", "D"] := by
  refine ⟨diamond_acyclic, ?_⟩
  have h4 : PanicIfCopyCycleFound diamond 4 order
      = .fatal "Cyclic copy found: A -> C -> D" ["A", "C", "D"] := by
    rcases diamond_orders order hperm with h | h | h | h | h | h <;> subst h <;> decide
  rw [panic_fuel_le diamond 4 fuel hfuel order (by rw [h4]; simp), h4]

/-- C2 with the keys in the order `A`, `B`, `C`. -/
theorem diamond_is_rejected_witness :
    diamond.Perm diamond ∧ 3 < 4 ∧ (∀ b, ¬ Relation.TransGen (edge diamond) b b) ∧
      PanicIfCopyCycleFound diamond 4 diamond
        = .fatal "Cyclic copy found: A -> C -> D" ["A", "C", "D"] :=
  ⟨List.Perm.refl _, by decide, diamond_is_rejected diamond 4 (List.Perm.refl _) (by decide)⟩

/-- C8: with a budget above the number of distinct buckets of the topology, neither
`detectCycle` (from any visited map, on any list) nor `PanicIfCopyCycleFound` (over any
sequence of roots) runs out of budget, and a larger budget gives the same result.  Every
recursive call follows the marking of a fresh bucket, so a run makes at most as many
recursive calls as there are distinct buckets, and on return at most as many as the
visited map gained entries. -/
theorem detectCycle_terminates (config : ConfigMap) (fuel : Nat)
    (hfuel : (buckets config).card < fuel) :
    (∀ conf cycle trail V,
      detectCycle config fuel conf cycle trail V ≠ .diverge ∧
      (∀ fuel2, fuel ≤ fuel2 →
        detectCycle config fuel2 conf cycle trail V
          = detectCycle config fuel conf cycle trail V) ∧
      (detectCycleCalls config fuel conf cycle trail V).1
        = detectCycle config fuel conf cycle trail V ∧
      (detectCycleCalls config fuel conf cycle trail V).2 ≤ (buckets config).card ∧
      (∀ V2, detectCycle config fuel conf cycle trail V = .returned V2 →
        (detectCycleCalls config fuel conf cycle trail V).2 + V.length ≤ V2.length)) ∧
    (∀ order, PanicIfCopyCycleFound config fuel order ≠ .diverge ∧
      ∀ fuel2, fuel ≤ fuel2 →
        PanicIfCopyCycleFound config fuel2 order = PanicIfCopyCycleFound config fuel order) := by
  have hV : ∀ V, unvisited config V < fuel :=
    fun V => lt_of_le_of_lt (unvisited_le_buckets config V) hfuel
  constructor
  · intro conf cycle trail V
    have hnd := detectCycle_ne_diverge config fuel conf cycle trail V (hV V)
    refine ⟨hnd, fun fuel2 hle => detectCycle_fuel_le config fuel fuel2 hle _ _ _ _ hnd,
      detectCycleCalls_fst config fuel conf cycle trail V,
      le_trans (detectCycleCalls_le config fuel conf cycle trail V).1
        (unvisited_le_buckets config V), ?_⟩
    intro V2 h2
    exact detectCycleCalls_marks config fuel conf cycle trail V V2
      (by rw [detectCycleCalls_fst]; exact h2)
  · intro order
    have hnd := panic_ne_diverge_of config fuel hV order
    exact ⟨hnd, fun fuel2 hle => panic_fuel_le config fuel fuel2 hle order hnd⟩

/-- C8 at the diamond, which has four distinct buckets. -/
theorem detectCycle_terminates_witness :
    (buckets diamond).card < 5 ∧
      PanicIfCopyCycleFound diamond 5 diamond ≠ .diverge ∧
      (detectCycleCalls diamond 5 ["B", "C"] "A" ["A"] ["A"]).2 ≤ (buckets diamond).card :=
  have h : (buckets diamond).card < 5 := by decide
  ⟨h, ((detectCycle_terminates diamond 5 h).2 diamond).1,
    ((detectCycle_terminates diamond 5 h).1 ["B", "C"] "A" ["A"] ["A"]).2.2.2.1⟩

/-- C9, as the code has it: when validation fails, the message is `Cyclic copy found: `
followed by the rendering of a bucket sequence that starts at a configured root, follows
destination edges, has at least two buckets and repeats none before its last one.  The
sequence is that of a walk `w` from the root, and its last bucket had been reached before:
it also ends a walk `w2` from the root that comes earlier in the order of the traversal
(the empty walk stands for the root itself).  The first and the last bucket are the same
exactly when the bucket met again is the root. -/
theorem reported_path_from_root (config : ConfigMap) (order : List (String × Config))
    (fuel : Nat) (msg : String) (t : List String) (hnd : config.keys.Nodup)
    (hperm : order.Perm config)
    (h : PanicIfCopyCycleFound config fuel order = .fatal msg t) :
    msg = "Cyclic copy found: " ++ render t ∧
      (∃ k ∈ config.keys, t.head? = some k) ∧
      List.Chain' (edge config) t ∧ 2 ≤ t.length ∧ t.dropLast.Nodup ∧
      ∃ k ∈ config.keys, ∃ (w w2 : List Nat) (d : String),
        t.head? = some k ∧ t.getLast? = some d ∧ w ≠ [] ∧ t = walkNodes config k w ∧
        walkEnd config k w = some d ∧ walkEnd config k w2 = some d ∧
        List.Lex (· < ·) w2 w ∧ w2 ≠ w ∧ (t.head? = t.getLast? ↔ d = k) := by
  obtain ⟨⟨k, v⟩, hkv, hf⟩ := panic_fatal_inv config fuel order msg t h
  have hmem : (k, v) ∈ config := hperm.mem_iff.1 hkv
  have hget := get_of_mem config hnd k v hmem
  have hk : k ∈ config.keys := List.mem_map.2 ⟨_, hmem, rfl⟩
  have hT : TrailOK config [k] [k] v.Destinations := by
    refine ⟨by simp, by simp, by simp, List.chain'_singleton k, ?_⟩
    intro l hl d hd
    simp only [List.getLast?_singleton, Option.mem_def, Option.some.injEq] at hl
    subst hl
    show d ∈ (config.get k).Destinations
    rw [hget]; exact hd
  obtain ⟨hm, mid, d, ht, hn, hch⟩ :=
    detectCycle_fatal_trail config fuel v.Destinations k [k] [k] msg t
      (by simp [render, String.intercalate, String.intercalate.go]) hT hf
  obtain ⟨w, w2, d2, hw, htw, hwd, hw2d, hlt⟩ :=
    detectCycle_fatal_walk config k fuel v.Destinations k [k] [k] msg t [] k 0 rfl
      (by rw [hget]; rfl) rfl
      (by
        intro b hb
        simp only [List.mem_singleton] at hb
        subst hb
        exact ⟨[], rfl, List.Lex.nil⟩) hf
  have hhead : t.head? = some k := by simp [ht]
  have hlast : t.getLast? = some d2 := by
    rw [htw]; exact walkNodes_getLast config w k d2 hwd
  refine ⟨hm, ⟨k, hk, hhead⟩, hch, by simp [ht], ?_, k, hk, w, w2, d2, hhead, hlast, hw, htw,
    hwd, hw2d, hlt, lex_ne w2 w hlt, ?_⟩
  · rw [ht, List.dropLast_concat]
    exact hn
  · rw [hhead, hlast]
    constructor
    · intro e; exact (Option.some.inj e).symm
    · rintro rfl; rfl

/-- C9 at the lasso `A -> B`, `B -> C`, `C -> B`, traversed from `A`: the report
`A -> B -> C -> B` follows the walk `[0, 0, 0]`, and `B` was reached before by `[0]`. -/
theorem reported_path_from_root_witness :
    lasso.keys.Nodup ∧ lasso.Perm lasso ∧
      PanicIfCopyCycleFound lasso 4 lasso
        = .fatal "Cyclic copy found: A -> B -> C -> B" ["A", "B", "C", "B"] ∧
      ("Cyclic copy found: A -> B -> C -> B"
          = "Cyclic copy found: " ++ render ["A", "B", "C", "B"] ∧
        (∃ k ∈ lasso.keys, ["A", "B", "C", "B"].head? = some k) ∧
        List.Chain' (edge lasso) ["A", "B", "C", "B"] ∧ 2 ≤ ["A", "B", "C", "B"].length ∧
        ["A", "B", "C", "B"].dropLast.Nodup ∧
        ∃ k ∈ lasso.keys, ∃ (w w2 : List Nat) (d : String),
          ["A", "B", "C", "B"].head? = some k ∧ ["A", "B", "C", "B"].getLast? = some d ∧
          w ≠ [] ∧ ["A", "B", "C", "B"] = walkNodes lasso k w ∧
          walkEnd lasso k w = some d ∧ walkEnd lasso k w2 = some d ∧
          List.Lex (· < ·) w2 w ∧ w2 ≠ w ∧
          (["A", "B", "C", "B"].head? = ["A", "B", "C", "B"].getLast? ↔ d = k)) :=
  ⟨by decide, List.Perm.refl _, by decide,
    reported_path_from_root lasso lasso 4 _ _ (by decide) (List.Perm.refl _) (by decide)⟩

/-- C9 as stated fails: from the root `A` of the lasso `A -> B`, `B -> C`, `C -> B` the
reported path is `A -> B -> C -> B`, which starts at `A` and ends at `B`. -/
theorem reported_path_not_closed :
    ¬ ∀ (config : ConfigMap) (order : List (String × Config)) (fuel : Nat) (msg : String)
        (t : List String), config.keys.Nodup → order.Perm config →
        PanicIfCopyCycleFound config fuel order = .fatal msg t → t.head? = t.getLast? := by
  intro h
  have := h lasso lasso 4 "Cyclic copy found: A -> B -> C -> B" ["A", "B", "C", "B"]
    (by decide) (List.Perm.refl _) (by decide)
  exact absurd this (by decide)

/-- C10: with the keys of the map distinct, `PanicIfCopyCycleFound` returns exactly when,
from every configured bucket `k`, no walk of one or more steps comes back to `k` and
every other bucket ends at most one walk from `k`, walks being told apart by the
positions picked in the destination lists.  The verdict is the same for every other
listing of the topology and every order of traversal.  `A: [B, B]` and the diamond are
rejected, `A: [C], B: [C]` is accepted. -/
theorem returns_iff_no_bucket_reached_twice (config : ConfigMap)
    (order : List (String × Config)) (fuel : Nat) (hnd : config.keys.Nodup)
    (hperm : order.Perm config) (hfuel : config.length < fuel) :
    (PanicIfCopyCycleFound config fuel order = .returned () ↔
      ∀ k ∈ config.keys, NoRevisit config k) ∧
    (∀ (config2 : ConfigMap) (order2 : List (String × Config)) (fuel2 : Nat),
      config2.keys.Nodup → SameTopology config config2 → order2.Perm config2 →
      config2.length < fuel2 →
      (PanicIfCopyCycleFound config2 fuel2 order2 = .returned () ↔
        PanicIfCopyCycleFound config fuel order = .returned ())) ∧
    PanicIfCopyCycleFound twice 2 twice = .fatal "Cyclic copy found: A -> B" ["A", "B"] ∧
    PanicIfCopyCycleFound diamond 4 diamond
      = .fatal "Cyclic copy found: A -> C -> D" ["A", "C", "D"] ∧
    PanicIfCopyCycleFound shared 3 shared = .returned () :=
  ⟨panic_returned_iff_noRevisit config order fuel hnd hperm hfuel,
    fun config2 order2 fuel2 hnd2 hsame hperm2 hfuel2 =>
      (verdict_of_sameTopology config config2 order order2 fuel fuel2 hnd hnd2 hsame hperm
        hperm2 hfuel hfuel2).symm,
    by decide, by decide, by decide⟩

/-- C10 at `A: [C], B: [C]`: the shared destination is reached once from each root. -/
theorem returns_iff_no_bucket_reached_twice_witness :
    shared.keys.Nodup ∧ shared.Perm shared ∧ shared.length < 3 ∧
      (PanicIfCopyCycleFound shared 3 shared = .returned () ↔
        ∀ k ∈ shared.keys, NoRevisit shared k) :=
  ⟨by decide, List.Perm.refl _, by decide,
    (returns_iff_no_bucket_reached_twice shared shared 3 (by decide) (List.Perm.refl _)
      (by decide)).1⟩

/-! ## The two loops of `processS3Event` -/

theorem startCopies_ok (config : ConfigMap) (NewSession : String → Bool) :
    ∀ (records : List S3EventRecord) (started : List CopyTask),
      (∀ v ∈ records, NewSession (config.get v.S3.Bucket.Name).Region = true) →
      startCopies config NewSession records started
        = .ok (started ++ records.flatMap (copiesOf config)) := by
  intro records
  induction records with
  | nil => intro started _; simp [startCopies]
  | cons v rest ih =>
    intro started h
    have hv := h v (List.mem_cons_self _ _)
    simp only [startCopies, hv, if_true]
    rw [ih _ (fun u hu => h u (List.mem_cons_of_mem _ hu))]
    simp [List.flatMap_cons, List.append_assoc]

theorem receiveEach_receiveN :
    ∀ (dests : List String) (chan : List (Option Error)) (n k : Nat),
      match receiveEach dests chan n with
      | .next chan2 n2 => receiveN (dests.length + k) chan n = receiveN k chan2 n2
      | .stop err n2 => receiveN (dests.length + k) chan n = (err, n2) := by
  intro dests
  induction dests with
  | nil => intro chan n k; simp [receiveEach]
  | cons d rest ih =>
    intro chan n k
    have hl : (d :: rest).length + k = (rest.length + k) + 1 := by simp; omega
    rw [hl]
    match chan with
    | [] => simp [receiveEach, receiveN]
    | some err :: chan => simp [receiveEach, receiveN]
    | none :: chan =>
      simp only [receiveEach, receiveN]
      exact ih chan (n + 1) k

/-- The nested receiving loops make as many receives in a row as there are
(record, destination) pairs. -/
theorem receiveAll_eq_receiveN (config : ConfigMap) :
    ∀ (records : List S3EventRecord) (chan : List (Option Error)) (n : Nat),
      receiveAll config records chan n
        = receiveN (records.flatMap (copiesOf config)).length chan n := by
  intro records
  induction records with
  | nil => intro chan n; simp [receiveAll, receiveN]
  | cons v rest ih =>
    intro chan n
    have hl : ((v :: rest).flatMap (copiesOf config)).length
        = (config.get v.S3.Bucket.Name).Destinations.length
          + (rest.flatMap (copiesOf config)).length := by
      simp [List.flatMap_cons, copiesOf]
    have h := receiveEach_receiveN (config.get v.S3.Bucket.Name).Destinations chan n
      (rest.flatMap (copiesOf config)).length
    rw [hl]
    simp only [receiveAll]
    cases hr : receiveEach (config.get v.S3.Bucket.Name).Destinations chan n with
    | next chan2 n2 =>
      rw [hr] at h
      simp only at h ⊢
      rw [h, ih]
    | stop err n2 =>
      rw [hr] at h
      simp only at h ⊢
      rw [h]

theorem receiveN_all_none :
    ∀ (k : Nat) (chan : List (Option Error)) (n : Nat),
      (∀ x ∈ chan, x = none) → k ≤ chan.length → receiveN k chan n = (some none, n + k) := by
  intro k
  induction k with
  | zero => intro chan n _ _; simp [receiveN]
  | succ k ih =>
    intro chan n h hk
    match chan, h, hk with
    | [], _, hk => simp at hk
    | some err :: chan, h, _ => exact absurd (h (some err) (List.mem_cons_self _ _)) (by simp)
    | none :: chan, h, hk =>
      simp only [receiveN]
      rw [ih chan (n + 1) (fun x hx => h x (List.mem_cons_of_mem _ hx))
        (by simpa using hk)]
      simp; omega

theorem receiveN_first :
    ∀ (pre : List (Option Error)) (k : Nat) (err : Error) (post : List (Option Error))
      (n : Nat), (∀ x ∈ pre, x = none) → pre.length < k →
      receiveN k (pre ++ some err :: post) n = (some (some err), n + pre.length + 1) := by
  intro pre
  induction pre with
  | nil =>
    intro k err post n _ hk
    match k, hk with
    | k + 1, _ => simp [receiveN]
  | cons a pre ih =>
    intro k err post n h hk
    have ha : a = none := h a (List.mem_cons_self _ _)
    subst ha
    match k, hk with
    | k + 1, hk =>
      show receiveN k (pre ++ some err :: post) (n + 1) = _
      rw [ih k err post (n + 1) (fun x hx => h x (List.mem_cons_of_mem _ hx))
        (by simpa using hk)]
      simp; omega

theorem first_failure_split :
    ∀ (chan : List (Option Error)), (∃ x ∈ chan, x ≠ none) →
      ∃ pre err post, chan = pre ++ some err :: post ∧ ∀ x ∈ pre, x = none := by
  intro chan
  induction chan with
  | nil => rintro ⟨x, hx, _⟩; simp at hx
  | cons a chan ih =>
    rintro ⟨x, hx, hne⟩
    cases a with
    | some err => exact ⟨[], err, chan, rfl, by simp⟩
    | none =>
      rcases List.mem_cons.1 hx with rfl | hx
      · exact absurd rfl hne
      · obtain ⟨pre, err, post, rfl, hpre⟩ := ih ⟨x, hx, hne⟩
        refine ⟨none :: pre, err, post, rfl, ?_⟩
        intro y hy
        rcases List.mem_cons.1 hy with rfl | hy
        · rfl
        · exact hpre y hy

theorem filterMap_all_none (f : Nat → Option (Option Error)) :
    ∀ (pre : List Nat), (∀ j ∈ pre, f j = some none) →
      (∀ x ∈ pre.filterMap f, x = none) ∧ (pre.filterMap f).length = pre.length := by
  intro pre
  induction pre with
  | nil => intro _; simp
  | cons a pre ih =>
    intro h
    have ha := h a (List.mem_cons_self _ _)
    obtain ⟨h1, h2⟩ := ih (fun j hj => h j (List.mem_cons_of_mem _ hj))
    rw [List.filterMap_cons_some ha]
    refine ⟨?_, by simp [h2]⟩
    intro x hx
    rcases List.mem_cons.1 hx with rfl | hx
    · rfl
    · exact h1 x hx

theorem sends_length (s3 : Nat → CopyResult) :
    ∀ (started : List CopyTask) (n : Nat), (sends s3 n started).length = started.length := by
  intro started
  induction started with
  | nil => intro n; rfl
  | cons t rest ih => intro n; simp [sends, ih]

theorem filterMap_range_getElem? {α : Type} (l : List α) :
    (List.range l.length).filterMap (fun i => l[i]?) = l := by
  induction l using List.reverseRecOn with
  | nil => rfl
  | append_singleton l a ih =>
    rw [List.length_append, List.length_singleton, List.range_succ, List.filterMap_append]
    have h1 : (List.range l.length).filterMap (fun i => (l ++ [a])[i]?)
        = (List.range l.length).filterMap (fun i => l[i]?) := by
      apply List.filterMap_congr
      intro i hi
      rw [List.getElem?_append_left (List.mem_range.1 hi)]
    rw [h1, ih]
    simp

/-- When every started copy hands its value over, the channel carries the values of the
started copies, each once. -/
theorem channel_perm (w : World) (started : List CopyTask)
    (harr : w.arrival.Perm (List.range started.length)) :
    (channel w started).Perm (sends w.s3 0 started) := by
  unfold channel
  have h := harr.filterMap (fun i => (sends w.s3 0 started)[i]?)
  have hl : started.length = (sends w.s3 0 started).length := (sends_length w.s3 started 0).symm
  rw [hl, filterMap_range_getElem?] at h
  exact h

theorem processS3Event_eq (config : ConfigMap) (w : World) (request : S3Event)
    (hsess : ∀ v ∈ request.Records, w.NewSession (config.get v.S3.Bucket.Name).Region = true) :
    processS3Event config w request =
      ⟨request.Records.flatMap (copiesOf config),
        (receiveN (request.Records.flatMap (copiesOf config)).length
          (channel w (request.Records.flatMap (copiesOf config))) 0).2,
        (receiveN (request.Records.flatMap (copiesOf config)).length
          (channel w (request.Records.flatMap (copiesOf config))) 0).1⟩ := by
  unfold processS3Event
  rw [startCopies_ok config w.NewSession request.Records [] hsess]
  simp only [List.nil_append, receiveAll_eq_receiveN]

/-- The first failure that comes out of the channel ends the call: it is returned, and
nothing after it is received. -/
theorem processS3Event_first_failure (config : ConfigMap) (w : World)
    (request : S3Event) (pre post : List Nat) (i : Nat) (err : Error)
    (hsess : ∀ v ∈ request.Records, w.NewSession (config.get v.S3.Bucket.Name).Region = true)
    (harr : w.arrival.Perm (List.range (request.Records.flatMap (copiesOf config)).length))
    (hsplit : w.arrival = pre ++ i :: post)
    (hpre : ∀ j ∈ pre,
      (sends w.s3 0 (processS3Event config w request).started)[j]? = some none)
    (hi : (sends w.s3 0 (processS3Event config w request).started)[i]? = some (some err)) :
    (processS3Event config w request).err = some (some err) ∧
      (processS3Event config w request).received = pre.length + 1 := by
  rw [processS3Event_eq config w request hsess] at hpre hi ⊢
  simp only at hpre hi ⊢
  obtain ⟨h1, h2⟩ := filterMap_all_none
    (fun j => (sends w.s3 0 (request.Records.flatMap (copiesOf config)))[j]?) pre hpre
  have hchan : channel w (request.Records.flatMap (copiesOf config))
      = pre.filterMap (fun j => (sends w.s3 0 (request.Records.flatMap (copiesOf config)))[j]?)
        ++ some err :: post.filterMap
          (fun j => (sends w.s3 0 (request.Records.flatMap (copiesOf config)))[j]?) := by
    unfold channel
    rw [hsplit, List.filterMap_append, List.filterMap_cons_some hi]
  have hlt : (pre.filterMap
      (fun j => (sends w.s3 0 (request.Records.flatMap (copiesOf config)))[j]?)).length
      < (request.Records.flatMap (copiesOf config)).length := by
    have := harr.length_eq
    rw [hsplit] at this
    simp only [List.length_append, List.length_cons, List.length_range] at this
    omega
  rw [hchan, receiveN_first _ _ err _ 0 h1 hlt, h2]
  simp

/-- When every started copy sends `nil`, the call receives all the values and returns
`nil`. -/
theorem processS3Event_all_succeed (config : ConfigMap) (w : World) (request : S3Event)
    (hsess : ∀ v ∈ request.Records, w.NewSession (config.get v.S3.Bucket.Name).Region = true)
    (harr : w.arrival.Perm (List.range (request.Records.flatMap (copiesOf config)).length))
    (hall : ∀ x ∈ sends w.s3 0 (processS3Event config w request).started, x = none) :
    (processS3Event config w request).err = some none ∧
      (processS3Event config w request).received
        = (processS3Event config w request).started.length := by
  rw [processS3Event_eq config w request hsess] at hall ⊢
  simp only at hall ⊢
  have hperm := channel_perm w _ harr
  have hlen : (channel w (request.Records.flatMap (copiesOf config))).length
      = (request.Records.flatMap (copiesOf config)).length := by
    rw [hperm.length_eq, sends_length]
  rw [receiveN_all_none _ _ 0 (fun x hx => hall x (hperm.mem_iff.1 hx)) (le_of_eq hlen.symm)]
  simp

/-! ## Main results on dispatch -/

/-- C3: when every record's session is established and every started copy hands its value
over, in whatever order, `processS3Event` has started one copy for each
(record, destination) pair whatever the outcomes, it returns, and it returns `nil`
exactly when every started copy sent `nil`; when exactly one copy fails it returns that
copy's failure; a record whose bucket has no destinations starts no copy.  A copy sends
`nil` exactly when S3 reports no error for it. -/
theorem dispatch_returns_the_failure (config : ConfigMap) (w : World) (request : S3Event)
    (hsess : ∀ v ∈ request.Records, w.NewSession (config.get v.S3.Bucket.Name).Region = true)
    (harr : w.arrival.Perm (List.range (request.Records.flatMap (copiesOf config)).length)) :
    (processS3Event config w request).started = request.Records.flatMap (copiesOf config) ∧
    (processS3Event config w request).err ≠ none ∧
    ((processS3Event config w request).err = some none ↔
      ∀ x ∈ sends w.s3 0 (processS3Event config w request).started, x = none) ∧
    (∀ (i : Nat) (err : Error),
      (sends w.s3 0 (processS3Event config w request).started)[i]? = some (some err) →
      (∀ (j : Nat) (x : Option Error), j ≠ i →
        (sends w.s3 0 (processS3Event config w request).started)[j]? = some x → x = none) →
      (processS3Event config w request).err = some (some err)) ∧
    (∀ v : S3EventRecord, (config.get v.S3.Bucket.Name).Destinations = [] →
      copiesOf config v = []) ∧
    (∀ svc from_ to_ item, copyObjects svc from_ to_ item = none ↔
      svc.CopyObject = none ∧ svc.WaitUntilObjectExists = none) := by
  rw [processS3Event_eq config w request hsess]
  simp only
  have hperm := channel_perm w _ harr
  have hlen : (channel w (request.Records.flatMap (copiesOf config))).length
      = (request.Records.flatMap (copiesOf config)).length := by
    rw [hperm.length_eq, sends_length]
  have hfail : ∀ x ∈ channel w (request.Records.flatMap (copiesOf config)), x ≠ none →
      ∃ err, (receiveN (request.Records.flatMap (copiesOf config)).length
          (channel w (request.Records.flatMap (copiesOf config))) 0).1 = some (some err) ∧
        some err ∈ channel w (request.Records.flatMap (copiesOf config)) := by
    intro x hx hne
    obtain ⟨pre, err, post, hsplit, hpre⟩ := first_failure_split _ ⟨x, hx, hne⟩
    refine ⟨err, ?_, by rw [hsplit]; simp⟩
    have hlt : pre.length < (request.Records.flatMap (copiesOf config)).length := by
      rw [← hlen, hsplit]; simp
    rw [hsplit, receiveN_first pre _ err post 0 hpre hlt]
  refine ⟨trivial, ?_, ?_, ?_, ?_, ?_⟩
  · by_cases hall : ∀ x ∈ channel w (request.Records.flatMap (copiesOf config)), x = none
    · rw [receiveN_all_none _ _ 0 hall (le_of_eq hlen.symm)]; simp
    · push_neg at hall
      obtain ⟨x, hx, hne⟩ := hall
      obtain ⟨err, he, _⟩ := hfail x hx hne
      rw [he]; simp
  · constructor
    · intro h x hx
      by_contra hne
      obtain ⟨err, he, _⟩ := hfail x (hperm.mem_iff.2 hx) hne
      rw [he] at h
      simp at h
    · intro h
      rw [receiveN_all_none _ _ 0 (fun x hx => h x (hperm.mem_iff.1 hx)) (le_of_eq hlen.symm)]
  · intro i err hi hothers
    have hmem : some err ∈ channel w (request.Records.flatMap (copiesOf config)) :=
      hperm.mem_iff.2 (List.getElem?_mem hi)
    obtain ⟨err2, he, hmem2⟩ := hfail (some err) hmem (by simp)
    obtain ⟨j, hj⟩ := List.getElem?_of_mem (hperm.mem_iff.1 hmem2)
    by_cases hji : j = i
    · subst hji
      rw [hi] at hj
      simp only [Option.some.injEq] at hj
      rw [he, hj]
    · exact absurd (hothers j (some err2) hji hj) (by simp)
  · intro v hv
    simp [copiesOf, hv]
  · intro svc from_ to_ item
    unfold copyObjects
    cases svc.CopyObject <;> cases svc.WaitUntilObjectExists <;> simp

/-- C3 at one record of bucket `S` with destinations `[X, Y]`, the copy to `X` failing and
the copy to `Y` succeeding: both copies are started and the failure of `X` is
returned. -/
theorem dispatch_returns_the_failure_witness :
    (∀ v ∈ photoEvent.Records,
        firstFails.NewSession (fanOut.get v.S3.Bucket.Name).Region = true) ∧
      firstFails.arrival.Perm
        (List.range (photoEvent.Records.flatMap (copiesOf fanOut)).length) ∧
      (processS3Event fanOut firstFails photoEvent).started
        = [⟨"S", "X", "photo.png"⟩, ⟨"S", "Y", "photo.png"⟩] ∧
      (processS3Event fanOut firstFails photoEvent).err
        = some (some (.copy "photo.png" "S" "X" "AccessDenied")) :=
  have hsess : ∀ v ∈ photoEvent.Records,
      firstFails.NewSession (fanOut.get v.S3.Bucket.Name).Region = true := fun _ _ => rfl
  have harr : firstFails.arrival.Perm
      (List.range (photoEvent.Records.flatMap (copiesOf fanOut)).length) := by decide
  ⟨hsess, harr,
    (dispatch_returns_the_failure fanOut firstFails photoEvent hsess harr).1.trans (by decide),
    (dispatch_returns_the_failure fanOut firstFails photoEvent hsess harr).2.2.2.1 0 _
      (by decide) (by
        intro j x hj hx
        match j, hj, hx with
        | 1, _, hx => exact (Option.some.inj hx).symm.trans (by decide)
        | j + 2, _, hx => exact absurd hx (by simp [sends, processS3Event, startCopies,
            copiesOf, fanOut, photoEvent, ConfigMap.get, List.lookup, bucket, firstFails]))⟩

/-- C5: with destinations `[X, Y]`, a failure of the copy to `X` that is received first
makes `processS3Event` return after one receive, while it started two copies: the value
of the copy to `Y` is never received.  In general the call receives every value only
when all of them are `nil`; the values that arrive after the first failure are not
received. -/
theorem failure_leaves_outcome_unreceived :
    ((processS3Event fanOut firstFails photoEvent).started
        = [⟨"S", "X", "photo.png"⟩, ⟨"S", "Y", "photo.png"⟩] ∧
      (processS3Event fanOut firstFails photoEvent).received = 1 ∧
      (processS3Event fanOut firstFails photoEvent).err
        = some (some (.copy "photo.png" "S" "X" "AccessDenied"))) ∧
    (∀ (config : ConfigMap) (w : World) (request : S3Event) (pre post : List Nat) (i : Nat)
      (err : Error),
      (∀ v ∈ request.Records, w.NewSession (config.get v.S3.Bucket.Name).Region = true) →
      w.arrival.Perm (List.range (request.Records.flatMap (copiesOf config)).length) →
      w.arrival = pre ++ i :: post →
      (∀ j ∈ pre, (sends w.s3 0 (processS3Event config w request).started)[j]? = some none) →
      (sends w.s3 0 (processS3Event config w request).started)[i]? = some (some err) →
      (processS3Event config w request).received + post.length
        = (processS3Event config w request).started.length) ∧
    (∀ (config : ConfigMap) (w : World) (request : S3Event),
      (∀ v ∈ request.Records, w.NewSession (config.get v.S3.Bucket.Name).Region = true) →
      w.arrival.Perm (List.range (request.Records.flatMap (copiesOf config)).length) →
      (∀ x ∈ sends w.s3 0 (processS3Event config w request).started, x = none) →
      (processS3Event config w request).received
        = (processS3Event config w request).started.length) := by
  refine ⟨by decide, ?_, ?_⟩
  · intro config w request pre post i err hsess harr hsplit hpre hi
    rw [(processS3Event_first_failure config w request pre post i err hsess harr hsplit
      hpre hi).2]
    have hlen := harr.length_eq
    rw [hsplit] at hlen
    simp only [List.length_append, List.length_cons, List.length_range] at hlen
    rw [processS3Event_eq config w request hsess]
    simp only
    omega
  · intro config w request hsess harr hall
    exact (processS3Event_all_succeed config w request hsess harr hall).2

/-- C6, as the code has it: the failure `processS3Event` returns is the first one that
comes out of the channel - that of the failed copy that completes first - and the call
returns as soon as it has received it. -/
theorem first_received_failure_is_returned (config : ConfigMap) (w : World)
    (request : S3Event) (pre post : List Nat) (i : Nat) (err : Error)
    (hsess : ∀ v ∈ request.Records, w.NewSession (config.get v.S3.Bucket.Name).Region = true)
    (harr : w.arrival.Perm (List.range (request.Records.flatMap (copiesOf config)).length))
    (hsplit : w.arrival = pre ++ i :: post)
    (hpre : ∀ j ∈ pre,
      (sends w.s3 0 (processS3Event config w request).started)[j]? = some none)
    (hi : (sends w.s3 0 (processS3Event config w request).started)[i]? = some (some err)) :
    (processS3Event config w request).err = some (some err) ∧
      (processS3Event config w request).received = pre.length + 1 :=
  processS3Event_first_failure config w request pre post i err hsess harr hsplit hpre hi

/-- C6 at destinations `[X, Y]` with both copies failing and `Y` completing first. -/
theorem first_received_failure_is_returned_witness :
    (∀ v ∈ photoEvent.Records,
        bothFail.NewSession (fanOut.get v.S3.Bucket.Name).Region = true) ∧
      bothFail.arrival.Perm
        (List.range (photoEvent.Records.flatMap (copiesOf fanOut)).length) ∧
      bothFail.arrival = [] ++ 1 :: [0] ∧
      (processS3Event fanOut bothFail photoEvent).err
        = some (some (.copy "photo.png" "S" "Y" "SlowDown")) ∧
      (processS3Event fanOut bothFail photoEvent).received = 1 :=
  have hsess : ∀ v ∈ photoEvent.Records,
      bothFail.NewSession (fanOut.get v.S3.Bucket.Name).Region = true := fun _ _ => rfl
  have harr : bothFail.arrival.Perm
      (List.range (photoEvent.Records.flatMap (copiesOf fanOut)).length) := by decide
  ⟨hsess, harr, rfl,
    first_received_failure_is_returned fanOut bothFail photoEvent [] [0] 1 _ hsess harr rfl
      (by simp) (by decide)⟩

/-- C6 as stated fails: with destinations `[X, Y]`, both copies failing and `Y`
completing first, the failure returned is that of `Y`, not that of `X`, the first failed
copy in the order of enumeration. -/
theorem first_failure_in_order_not_returned :
    ¬ ∀ (config : ConfigMap) (w : World) (request : S3Event),
        (∀ v ∈ request.Records,
          w.NewSession (config.get v.S3.Bucket.Name).Region = true) →
        w.arrival.Perm (List.range (request.Records.flatMap (copiesOf config)).length) →
        ∀ (i : Nat) (err : Error),
          (sends w.s3 0 (processS3Event config w request).started)[i]? = some (some err) →
          (∀ j, j < i →
            (sends w.s3 0 (processS3Event config w request).started)[j]? = some none) →
          (processS3Event config w request).err = some (some err) := by
  intro h
  have := h fanOut bothFail photoEvent (fun _ _ => rfl) (by decide) 0
    (.copy "photo.png" "S" "X" "AccessDenied") (by decide) (fun j hj => absurd hj (by omega))
  exact absurd this (by decide)

/-! ## The loop of `processSQSEvent` and the tests of `ProcessIncomingEvents` -/

theorem unmarshalBody_error (q : Queue) (message : Message) (f : Fate)
    (h : unmarshalBody q message = .error f) : deleteCalled f = false ∧ f ≠ .deleted := by
  unfold unmarshalBody at h
  split at h
  · cases h; exact ⟨rfl, by simp⟩
  · split at h
    · cases h
    · split at h
      · cases h
      · cases h; exact ⟨rfl, by simp⟩

/-- The decoding steps of the code give an event exactly when the message decodes to it
step by step. -/
theorem unmarshalBody_ok_iff (q : Queue) (message : Message) (e : S3Event) :
    unmarshalBody q message = .ok e ↔ DecodesTo q message e := by
  unfold unmarshalBody DecodesTo
  rcases h1 : q.UnmarshalSNS message.Body SNSEntity.zero with ⟨sns, err1⟩
  cases err1 with
  | some x => simp
  | none =>
    simp only [Prod.mk.injEq, and_true, exists_eq_left']
    rcases h2 : q.UnmarshalS3 sns.Message S3Event.zero with ⟨e2, err2⟩
    cases err2 with
    | none => simp
    | some y =>
      simp only [Prod.mk.injEq, reduceCtorEq, and_false, false_or, Option.some.injEq]
      rcases h3 : q.UnmarshalS3 message.Body e2 with ⟨e3, err3⟩
      cases err3 with
      | none =>
        simp only [Except.ok.injEq]
        constructor
        · rintro rfl
          exact ⟨e2, y, ⟨rfl, rfl⟩, by rw [h3]⟩
        · rintro ⟨left, err, ⟨rfl, _⟩, h⟩
          rw [h3] at h
          exact (Prod.mk.inj h).1
      | some z =>
        simp only [reduceCtorEq, false_iff, not_exists, not_and]
        rintro left err ⟨rfl, _⟩ h
        rw [h3] at h
        simp at h

/-- What `processSQSEvent` does with the first message of a batch when the call of
`processS3Event`, if one is made, returns. -/
theorem processSQSEvent_cons (config : ConfigMap) (q : Queue) (message : Message)
    (rest : List Message)
    (hlive : ∀ e, DecodesTo q message e →
      (processS3Event config (q.world message) e).err ≠ none) :
    ∃ fate, processSQSEvent config q (message :: rest)
        = (message, fate) :: processSQSEvent config q rest ∧
      (deleteCalled fate = true ↔
        ∃ e, DecodesTo q message e ∧
          (processS3Event config (q.world message) e).err = some none) ∧
      (fate = .deleted ↔
        ∃ e, DecodesTo q message e ∧
          (processS3Event config (q.world message) e).err = some none ∧
          q.DeleteMessage message = none) := by
  cases hd : unmarshalBody q message with
  | error f =>
    obtain ⟨h1, h2⟩ := unmarshalBody_error q message f hd
    have hno : ∀ e, ¬ DecodesTo q message e := by
      intro e he
      rw [← unmarshalBody_ok_iff, hd] at he
      cases he
    exact ⟨f, by simp [processSQSEvent, hd], by simp [h1, hno], by simp [h2, hno]⟩
  | ok e =>
    have hdec : ∀ e2, DecodesTo q message e2 ↔ e2 = e := by
      intro e2
      rw [← unmarshalBody_ok_iff, hd]
      constructor
      · intro h; cases h; rfl
      · rintro rfl; rfl
    cases he : (processS3Event config (q.world message) e).err with
    | none => exact absurd he (hlive e ((hdec e).2 rfl))
    | some r =>
      cases r with
      | some err =>
        exact ⟨.processingFailed err, by simp [processSQSEvent, hd, he],
          by simp [deleteCalled, hdec, he], by simp [hdec, he]⟩
      | none =>
        cases hq : q.DeleteMessage message with
        | some err =>
          exact ⟨.deleteFailed (.queue err),
            by simp [processSQSEvent, hd, he, deleteMessageFromSQS, hq],
            by simp [deleteCalled, hdec, he], by simp [hdec, he, hq]⟩
        | none =>
          exact ⟨.deleted, by simp [processSQSEvent, hd, he, deleteMessageFromSQS, hq],
            by simp [deleteCalled, hdec, he], by simp [hdec, he, hq]⟩

theorem first_record_test {α : Type} (l : List α) (f : α → String) :
    (0 < l.length ∧ l[0]?.map f ≠ some "") ↔ ∃ r rest, l = r :: rest ∧ f r ≠ "" := by
  cases l with
  | nil => simp
  | cons a l => simp

/-! ## Main results on queue messages and on the entry point -/

/-- C4: as long as no call of `processS3Event` waits for ever, `processSQSEvent` handles
every message of the batch, in order, and deletes a message - that is, calls
`deleteMessageFromSQS` for it - exactly when the message decoded to an S3 event and
`processS3Event` returned `nil` on that event; the message is then gone from the queue
unless the delete request itself fails, which is only logged.  A message whose decoding
or processing fails is not deleted, and the messages after it are still handled.  The
event is the one the decoding steps leave in `s3Event`; when a failed `json.Unmarshal`
leaves its target untouched, it is what the entity's `Message` or else the body alone
unmarshals to.  On `residueQueue`, where the failed call has written a record, that
record is processed. -/
theorem delete_iff_decoded_and_processed (config : ConfigMap) (q : Queue)
    (batch : List Message)
    (hlive : ∀ m ∈ batch, ∀ e, DecodesTo q m e →
      (processS3Event config (q.world m) e).err ≠ none) :
    (processSQSEvent config q batch).map Prod.fst = batch ∧
    (∀ m fate, (m, fate) ∈ processSQSEvent config q batch →
      (deleteCalled fate = true ↔
        ∃ e, DecodesTo q m e ∧
          (processS3Event config (q.world m) e).err = some none) ∧
      (fate = .deleted ↔
        ∃ e, DecodesTo q m e ∧
          (processS3Event config (q.world m) e).err = some none ∧
          q.DeleteMessage m = none)) ∧
    ((∀ text left err, q.UnmarshalS3 text S3Event.zero = (left, some err) →
        left = S3Event.zero) →
      ∀ m e, DecodesTo q m e ↔
        ∃ snsMessages, q.UnmarshalSNS m.Body SNSEntity.zero = (snsMessages, none) ∧
          (q.UnmarshalS3 snsMessages.Message S3Event.zero = (e, none) ∨
            ((q.UnmarshalS3 snsMessages.Message S3Event.zero).2 ≠ none ∧
              q.UnmarshalS3 m.Body S3Event.zero = (e, none)))) ∧
    processSQSEvent fanOut residueQueue [⟨"envelope", "r1"⟩]
      = [(⟨"envelope", "r1"⟩,
          .processingFailed (.copy "report.csv" "S" "X" "AccessDenied"))] := by
  refine ⟨?_, ?_, ?_, by decide⟩
  · induction batch with
    | nil => simp [processSQSEvent]
    | cons message rest ih =>
      obtain ⟨f, hf, _, _⟩ := processSQSEvent_cons config q message rest
        (hlive message (List.mem_cons_self _ _))
      rw [hf]
      simp [ih (fun m hm => hlive m (List.mem_cons_of_mem _ hm))]
  · induction batch with
    | nil => simp [processSQSEvent]
    | cons message rest ih =>
      obtain ⟨f, hf, h1, h2⟩ := processSQSEvent_cons config q message rest
        (hlive message (List.mem_cons_self _ _))
      rw [hf]
      intro m fate hm
      rcases List.mem_cons.1 hm with heq | hm
      · simp only [Prod.mk.injEq] at heq
        rw [heq.1, heq.2]
        exact ⟨h1, h2⟩
      · exact ih (fun m hm => hlive m (List.mem_cons_of_mem _ hm)) m fate hm
  · intro hclean m e
    unfold DecodesTo
    constructor
    · rintro ⟨sns, h1, h2 | ⟨left, err, h2, h3⟩⟩
      · exact ⟨sns, h1, Or.inl h2⟩
      · have hl := hclean _ _ _ h2
        subst hl
        exact ⟨sns, h1, Or.inr ⟨by rw [h2]; simp, h3⟩⟩
    · rintro ⟨sns, h1, h2 | ⟨h2, h3⟩⟩
      · exact ⟨sns, h1, Or.inl h2⟩
      · rcases hu : q.UnmarshalS3 sns.Message S3Event.zero with ⟨left, err⟩
        rw [hu] at h2
        cases err with
        | none => exact absurd rfl h2
        | some x =>
          have hl := hclean _ _ _ hu
          subst hl
          exact ⟨sns, h1, Or.inr ⟨_, x, hu, h3⟩⟩

/-- C4 at a batch of three messages: the one that is not JSON is skipped, the two
notifications after and before it are deleted. -/
theorem delete_iff_decoded_and_processed_witness :
    (∀ m ∈ [(⟨"event", "r1"⟩ : Message), ⟨"<html>", "r2"⟩, ⟨"event", "r3"⟩], ∀ e,
        DecodesTo plainQueue m e →
        (processS3Event fanOut (plainQueue.world m) e).err ≠ none) ∧
      processSQSEvent fanOut plainQueue [⟨"event", "r1"⟩, ⟨"<html>", "r2"⟩, ⟨"event", "r3"⟩]
        = [(⟨"event", "r1"⟩, .deleted), (⟨"<html>", "r2"⟩, .snsUnmarshalFailed),
            (⟨"event", "r3"⟩, .deleted)] ∧
      (processSQSEvent fanOut plainQueue
        [⟨"event", "r1"⟩, ⟨"<html>", "r2"⟩, ⟨"event", "r3"⟩]).map Prod.fst
        = [⟨"event", "r1"⟩, ⟨"<html>", "r2"⟩, ⟨"event", "r3"⟩] :=
  have hlive : ∀ m ∈ [(⟨"event", "r1"⟩ : Message), ⟨"<html>", "r2"⟩, ⟨"event", "r3"⟩], ∀ e,
      DecodesTo plainQueue m e →
      (processS3Event fanOut (plainQueue.world m) e).err ≠ none := by
    intro m hm e he
    rw [← unmarshalBody_ok_iff] at he
    have hbody : m.Body = "event" ∨ m.Body = "<html>" := by
      simp only [List.mem_cons, List.mem_singleton, List.not_mem_nil, or_false] at hm
      rcases hm with rfl | rfl | rfl <;> simp
    rcases hbody with hb | hb
    · have : e = photoEvent := by
        simp [unmarshalBody, plainQueue, hb] at he
        exact he.symm
      subst this
      show (processS3Event fanOut allSucceed photoEvent).err ≠ none
      decide
    · simp [unmarshalBody, plainQueue, hb] at he
  ⟨hlive, by decide,
    (delete_iff_decoded_and_processed fanOut plainQueue _ hlive).1⟩

/-- C7, as the code has it: once `parseConfig` has returned `nil`, an event that is not a
JSON object makes the type assertion of `ProcessIncomingEvents` panic, and an event that
is one is passed to `processS3Event` exactly when its decoding as an S3 event has a first
record and that record's object key is not empty.  This test comes first; when it fails,
the event goes to `processSNSEvent` exactly when its decoding as an SNS event has a first
record with a non-empty message identifier, and to `processSQSMessage` when that fails
too. -/
theorem direct_iff_first_record_has_key {Raw : Type} (source : Except String ConfigMap)
    (fuel : Nat) (decodeS3 : Raw → S3Event) (decodeSNS : Raw → SNSEvent)
    (hparse : parseConfig source fuel = .returned none) :
    ProcessIncomingEvents source fuel decodeS3 decodeSNS .other = .panicked ∧
    ∀ e : Raw,
      (ProcessIncomingEvents source fuel decodeS3 decodeSNS (.object e)
          = .passed (.processS3Event (decodeS3 e)) ↔
        ∃ r rest, (decodeS3 e).Records = r :: rest ∧ r.S3.Object.Key ≠ "") ∧
      ((¬ ∃ r rest, (decodeS3 e).Records = r :: rest ∧ r.S3.Object.Key ≠ "") →
        (ProcessIncomingEvents source fuel decodeS3 decodeSNS (.object e)
            = .passed (.processSNSEvent (decodeSNS e)) ↔
          ∃ r rest, (decodeSNS e).Records = r :: rest ∧ r.SNS.MessageID ≠ "") ∧
        ((¬ ∃ r rest, (decodeSNS e).Records = r :: rest ∧ r.SNS.MessageID ≠ "") →
          ProcessIncomingEvents source fuel decodeS3 decodeSNS (.object e)
            = .passed .processSQSMessage)) := by
  refine ⟨by simp [ProcessIncomingEvents, hparse], ?_⟩
  intro e
  have h1 := first_record_test (decodeS3 e).Records (fun r => r.S3.Object.Key)
  have h2 := first_record_test (decodeSNS e).Records (fun r => r.SNS.MessageID)
  unfold ProcessIncomingEvents
  rw [hparse]
  simp only
  by_cases c1 : 0 < (decodeS3 e).Records.length ∧
      (decodeS3 e).Records[0]?.map (fun r => r.S3.Object.Key) ≠ some ""
  · rw [if_pos c1]
    exact ⟨⟨fun _ => h1.1 c1, fun _ => rfl⟩, fun hn => absurd (h1.1 c1) hn⟩
  · rw [if_neg c1]
    have n1 := fun h => c1 (h1.2 h)
    by_cases c2 : 0 < (decodeSNS e).Records.length ∧
        (decodeSNS e).Records[0]?.map (fun r => r.SNS.MessageID) ≠ some ""
    · rw [if_pos c2]
      refine ⟨⟨fun h => ?_, fun h => absurd h n1⟩, fun _ =>
        ⟨⟨fun _ => h2.1 c2, fun _ => rfl⟩, fun hn => absurd (h2.1 c2) hn⟩⟩
      simp at h
    · rw [if_neg c2]
      have n2 := fun h => c2 (h2.2 h)
      refine ⟨⟨fun h => ?_, fun h => absurd h n1⟩, fun _ =>
        ⟨⟨fun h => ?_, fun h => absurd h n2⟩, fun _ => rfl⟩⟩
      · simp at h
      · simp at h

/-- C7 at an event whose two decodings both pass their test: it is handled as direct;
and at an event that is not a JSON object. -/
theorem direct_iff_first_record_has_key_witness :
    parseConfig (.ok shared) 3 = .returned none ∧
      ProcessIncomingEvents (.ok shared) 3 (fun _ : Unit => photoEvent)
        (fun _ => ⟨[⟨⟨"id-1", ""⟩⟩]⟩) (.object ()) = .passed (.processS3Event photoEvent) ∧
      ProcessIncomingEvents (.ok shared) 3 (fun _ : Unit => photoEvent)
        (fun _ => ⟨[⟨⟨"id-1", ""⟩⟩]⟩) .other = .panicked :=
  ⟨rfl,
    ((direct_iff_first_record_has_key (.ok shared) 3 (fun _ : Unit => photoEvent)
      (fun _ => ⟨[⟨⟨"id-1", ""⟩⟩]⟩) rfl).2 ()).1.2 ⟨_, _, rfl, by decide⟩,
    (direct_iff_first_record_has_key (.ok shared) 3 (fun _ : Unit => photoEvent)
      (fun _ => ⟨[⟨⟨"id-1", ""⟩⟩]⟩) rfl).1⟩

/-- C7 as stated fails: an event, a JSON object, whose first record has an empty key and
whose second record has the key `photo.png` contains a record with a non-empty key, and
is not handled as direct; with no SNS record it falls back to the queues. -/
theorem record_with_key_not_direct :
    ¬ ∀ (source : Except String ConfigMap) (fuel : Nat) (decodeS3 : Unit → S3Event)
        (decodeSNS : Unit → SNSEvent) (e : Unit),
        parseConfig source fuel = .returned none →
        (ProcessIncomingEvents source fuel decodeS3 decodeSNS (.object e)
            = .passed (.processS3Event (decodeS3 e)) ↔
          ∃ r ∈ (decodeS3 e).Records, r.S3.Object.Key ≠ "") := by
  intro h
  have h1 := (h (.ok shared) 3 (fun _ => keyInSecondRecord) (fun _ => ⟨[]⟩) () rfl).2
    ⟨⟨⟨⟨"S"⟩, ⟨"photo.png"⟩⟩⟩, by decide, by decide⟩
  have h2 : ProcessIncomingEvents (.ok shared) 3 (fun _ : Unit => keyInSecondRecord)
      (fun _ => ⟨[]⟩) (.object ()) = .passed .processSQSMessage := rfl
  rw [h2] at h1
  simp at h1

end S3Copy
